import Mathlib

/-!
# Verification of the xv6sh core pipeline

Shallow embedding of the xv6sh shell core (scanner, parser, serializer,
translator, interpreter) together with proofs about the natural-language
specification's claims.

Conventions of the embedding:
* Rust `VecDeque` values are Lean `List`s; `push_back` appends at the end,
  `push_front` conses at the front, `pop_front` takes the head.
* Rust `Result<T>`/`Error` become `Except Err T` with `Err` carrying the
  reason string, exactly as `model.rs` does.
* The scanner's `String` word buffer is modelled as a `List Char` that is
  turned into a `String` when the token is emitted.
* OS effects (spawning children, opening files, creating pipes, changing
  directory) are modelled by oracles in an environment structure plus an
  explicit event trace, so that the interpreter's control flow is the
  faithful part and OS outcomes are parameters.
-/

namespace Xv6sh

/-- Error emitted by the shell (`model.rs`, `Error`). -/
structure Err where
  reason : String
deriving DecidableEq, Repr

/-- Kind of a scanned token (`lexer.rs`, `Kind`). -/
inductive Kind where
  | pipe
  | openBrace
  | closeBrace
  | semicolon
  | ampersand
  | minor
  | major
  | majorMajor
  | commandOrArgument
  | endOfLine
deriving DecidableEq, Repr

/-- Scanned token (`lexer.rs`, `Token`). -/
structure Token where
  kind : Kind
  value : String
deriving DecidableEq, Repr

/-- The token that `Lexer::leave_and_push_back` emits for an operator:
its value is the empty string (`String::new()`). -/
def opToken (k : Kind) : Token := ⟨k, ""⟩

/-- `Lexer::leave`: flush the pending word buffer, emitting a
`CommandOrArgument` token when the buffer is non-empty. -/
def flushBuff (buff : List Char) : List Token :=
  if buff = [] then [] else [⟨Kind.commandOrArgument, ⟨buff⟩⟩]

/-- `Lexer::run`/`Lexer::process_current`: one forward pass over the input
characters with the pending-word buffer as state.  Whitespace flushes the
buffer; single-character operators flush and emit their token; `>` peeks one
character to distinguish `>` from `>>` (a trailing `>` emits `Major` and
ends the scan); any other character extends the buffer.  At end of input the
buffer is flushed and a single `EndOfLine` token is emitted. -/
def lexRun : List Char → List Char → List Token
  | [], buff => flushBuff buff ++ [opToken Kind.endOfLine]
  | c :: rest, buff =>
    if c = ' ' ∨ c = '\t' then
      flushBuff buff ++ lexRun rest []
    else if c = '|' then
      flushBuff buff ++ [opToken Kind.pipe] ++ lexRun rest []
    else if c = '(' then
      flushBuff buff ++ [opToken Kind.openBrace] ++ lexRun rest []
    else if c = ')' then
      flushBuff buff ++ [opToken Kind.closeBrace] ++ lexRun rest []
    else if c = ';' then
      flushBuff buff ++ [opToken Kind.semicolon] ++ lexRun rest []
    else if c = '&' then
      flushBuff buff ++ [opToken Kind.ampersand] ++ lexRun rest []
    else if c = '<' then
      flushBuff buff ++ [opToken Kind.minor] ++ lexRun rest []
    else if c = '>' then
      match rest with
      | c2 :: rest2 =>
        if c2 = '>' then
          flushBuff buff ++ [opToken Kind.majorMajor] ++ lexRun rest2 []
        else
          flushBuff buff ++ [opToken Kind.major] ++ lexRun (c2 :: rest2) []
      | [] => flushBuff buff ++ [opToken Kind.major] ++ [opToken Kind.endOfLine]
    else
      lexRun rest (buff ++ [c])

/-- `lexer::scan`: scans the command line into a token sequence. -/
def scan (cmdline : String) : List Token :=
  lexRun cmdline.data []

/-- Input redirection (`parser.rs`, `InputRedir`). -/
structure InputRedir where
  filename : String
deriving DecidableEq, Repr

/-- Output redirection (`parser.rs`, `OutputRedir`): `overwrite` is true
for `>` and false for `>>`. -/
structure OutputRedir where
  filename : String
  overwrite : Bool
deriving DecidableEq, Repr

/-- List of redirections (`parser.rs`, `RedirectList`). -/
structure RedirectList where
  input : List InputRedir
  output : List OutputRedir
deriving DecidableEq, Repr

/-- Simple command (`parser.rs`, `SimpleCommand`). -/
structure SimpleCommand where
  arguments : List String
  redirs : RedirectList
deriving DecidableEq, Repr

mutual

/-- Complete command (`parser.rs`, `CompleteCommand`). -/
inductive CompleteCommand where
  | mk (pipelines : List Pipeline) : CompleteCommand

/-- Pipeline (`parser.rs`, `Pipeline`). -/
inductive Pipeline where
  | mk (commands : List Command) (sync : Bool) : Pipeline

/-- Command (`parser.rs`, `Command`). -/
inductive Command where
  | simpleCommand (cmd : SimpleCommand) : Command
  | subshell (ss : Subshell) : Command

/-- Subshell (`parser.rs`, `Subshell`). -/
inductive Subshell where
  | mk (complete_command : CompleteCommand) (redirs : RedirectList) : Subshell

end

/-- The pipelines of a complete command. -/
def CompleteCommand.pipelines : CompleteCommand → List Pipeline
  | .mk ps => ps

/-- The commands of a pipeline. -/
def Pipeline.commands : Pipeline → List Command
  | .mk cs _ => cs

/-- The sync flag of a pipeline. -/
def Pipeline.sync : Pipeline → Bool
  | .mk _ b => b

/-- The inner complete command of a subshell. -/
def Subshell.complete_command : Subshell → CompleteCommand
  | .mk cc _ => cc

/-- The redirections of a subshell. -/
def Subshell.redirs : Subshell → RedirectList
  | .mk _ rl => rl

/-! ## Serializer (`serializer.rs`) -/

/-- `Serializer::simple_command`, word part: arguments joined by single
spaces (a space is pushed after an argument only when more follow). -/
def serializeWords : List String → String
  | [] => ""
  | [w] => w
  | w :: rest => w ++ " " ++ serializeWords rest

/-- `Serializer::redirs`: emits `<` plus the first input redirection's
filename when one is present, then `>` or `>>` plus the first output
redirection's filename when one is present.  Further redirections are
ignored. -/
def serializeRedirs (rl : RedirectList) : String :=
  (match rl.input with
   | [] => ""
   | i :: _ => "<" ++ i.filename) ++
  (match rl.output with
   | [] => ""
   | o :: _ => (if o.overwrite then ">" else ">>") ++ o.filename)

mutual

/-- `Serializer::complete_command`: pipelines joined by `;` (a `;` is
pushed after a pipeline only when more follow). -/
def serializeCompleteCommand : CompleteCommand → Except Err String
  | .mk ps => serializePipelines ps

/-- The pipeline-joining loop of `Serializer::complete_command`. -/
def serializePipelines : List Pipeline → Except Err String
  | [] => Except.ok ""
  | [p] => serializePipeline p
  | p :: rest => do
    let s ← serializePipeline p
    let t ← serializePipelines rest
    Except.ok (s ++ ";" ++ t)

/-- `Serializer::pipeline`: fails on an empty pipeline, otherwise joins
the commands with `|`. -/
def serializePipeline : Pipeline → Except Err String
  | .mk cs _ =>
    if cs.length ≤ 0 then Except.error ⟨"empty pipeline"⟩
    else serializeCommands cs

/-- The command-joining loop of `Serializer::pipeline`. -/
def serializeCommands : List Command → Except Err String
  | [] => Except.ok ""
  | [c] => serializeCommand c
  | c :: rest => do
    let s ← serializeCommand c
    let t ← serializeCommands rest
    Except.ok (s ++ "|" ++ t)

/-- `Serializer::command` / `Serializer::simple_command` /
`Serializer::subshell`. -/
def serializeCommand : Command → Except Err String
  | .simpleCommand sc =>
    Except.ok (serializeWords sc.arguments ++ serializeRedirs sc.redirs)
  | .subshell (Subshell.mk cc rl) => do
    let s ← serializeCompleteCommand cc
    Except.ok ("(" ++ s ++ ")" ++ serializeRedirs rl)

end

/-- `serializer::serialize`: serializes the parse tree to a string. -/
def serialize (cc : CompleteCommand) : Except Err String :=
  serializeCompleteCommand cc

/-! ## Parser (`parser.rs`)

The parser owns a `VecDeque` of tokens with `read` (pop front, erroring on
an empty stream) and `unread` (push front).  The mutual recursion
`parse_complete_command → parse_pipeline → parse_command → parse_subshell →
parse_complete_command` is embedded with an explicit fuel parameter that is
decremented at every call in the cycle; the top-level `parse` supplies fuel
that provably suffices for every terminating run (the Rust loops always
consume at least one token per round).  Running out of fuel yields the
distinguished `fuelErr` error, which no source error message equals. -/

/-- Error used when the embedding's fuel is exhausted (not a source
error; the Rust parser terminates on every input). -/
def fuelErr : Err := ⟨"out of fuel"⟩

/-- `Parser::read` on the token deque. -/
def readToken : List Token → Except Err (Token × List Token)
  | [] => Except.error ⟨"unexpected end of input"⟩
  | t :: rest => Except.ok (t, rest)

/-- `Parser::read_command_or_argument_token`. -/
def readCommandOrArgumentToken : List Token → Except Err (Token × List Token)
  | [] => Except.error ⟨"unexpected end of input"⟩
  | t :: rest =>
    match t.kind with
    | Kind.commandOrArgument => Except.ok (t, rest)
    | _ => Except.error ⟨"expected CommandOrArgument token"⟩

/-- The argument-collecting loop of `Parser::parse_simple_command`:
consume `CommandOrArgument` tokens until some other token is unread. -/
def parseSimpleArgs : List Token → Except Err (List String × List Token)
  | [] => Except.error ⟨"unexpected end of input"⟩
  | t :: rest =>
    match t.kind with
    | Kind.commandOrArgument => do
      let (args, rest') ← parseSimpleArgs rest
      Except.ok (t.value :: args, rest')
    | _ => Except.ok ([], t :: rest)

/-- The loop of `Parser::parse_redirs` with the accumulated redirect list:
`<`/`>`/`>>` each read a following `CommandOrArgument` token (the body of
`Parser::read_command_or_argument_token` is inlined here so that the
recursion is structural) and `push_front` the redirection; any other
token is unread and ends the loop. -/
def parseRedirsLoop : List Token → RedirectList → Except Err (RedirectList × List Token)
  | [], _ => Except.error ⟨"unexpected end of input"⟩
  | t :: rest, rl =>
    match t.kind with
    | Kind.minor =>
      match rest with
      | [] => Except.error ⟨"unexpected end of input"⟩
      | v :: rest' =>
        match v.kind with
        | Kind.commandOrArgument =>
          parseRedirsLoop rest' { rl with input := ⟨v.value⟩ :: rl.input }
        | _ => Except.error ⟨"expected CommandOrArgument token"⟩
    | Kind.major =>
      match rest with
      | [] => Except.error ⟨"unexpected end of input"⟩
      | v :: rest' =>
        match v.kind with
        | Kind.commandOrArgument =>
          parseRedirsLoop rest' { rl with output := ⟨v.value, true⟩ :: rl.output }
        | _ => Except.error ⟨"expected CommandOrArgument token"⟩
    | Kind.majorMajor =>
      match rest with
      | [] => Except.error ⟨"unexpected end of input"⟩
      | v :: rest' =>
        match v.kind with
        | Kind.commandOrArgument =>
          parseRedirsLoop rest' { rl with output := ⟨v.value, false⟩ :: rl.output }
        | _ => Except.error ⟨"expected CommandOrArgument token"⟩
    | _ => Except.ok (rl, t :: rest)

/-- `Parser::parse_redirs`, starting from the empty `RedirectList`. -/
def parseRedirs (toks : List Token) : Except Err (RedirectList × List Token) :=
  parseRedirsLoop toks ⟨[], []⟩

/-- `Parser::parse_simple_command`: words, then redirections. -/
def parseSimpleCommand (toks : List Token) : Except Err (Command × List Token) := do
  let (args, toks) ← parseSimpleArgs toks
  let (rl, toks) ← parseRedirs toks
  Except.ok (Command.simpleCommand ⟨args, rl⟩, toks)

mutual

/-- `Parser::parse_complete_command`: parse a pipeline, read its
terminator; `;` sets `sync=true` and continues, `&` sets `sync=false` and
continues, `EndOfLine` and `)` set `sync=true`, unread the token and stop;
anything else is a parse error. -/
def parseCompleteCommandF : Nat → List Token → Except Err (CompleteCommand × List Token)
  | 0, _ => Except.error fuelErr
  | f + 1, toks => do
    let (p, toks) ← parsePipelineF f toks
    let (t, toks') ← readToken toks
    match t.kind with
    | Kind.semicolon => do
      let (cc, rest) ← parseCompleteCommandF f toks'
      Except.ok (CompleteCommand.mk (Pipeline.mk p.commands true :: cc.pipelines), rest)
    | Kind.ampersand => do
      let (cc, rest) ← parseCompleteCommandF f toks'
      Except.ok (CompleteCommand.mk (Pipeline.mk p.commands false :: cc.pipelines), rest)
    | Kind.endOfLine =>
      Except.ok (CompleteCommand.mk [Pipeline.mk p.commands true], t :: toks')
    | Kind.closeBrace =>
      Except.ok (CompleteCommand.mk [Pipeline.mk p.commands true], t :: toks')
    | _ => Except.error ⟨"expected ;&) or EOL"⟩

/-- `Parser::parse_pipeline`: parse a command; a following `|` continues
the pipeline, any other token is unread and ends it.  The `sync` flag is
the `Pipeline::new()` default `false` (the caller sets it). -/
def parsePipelineF : Nat → List Token → Except Err (Pipeline × List Token)
  | 0, _ => Except.error fuelErr
  | f + 1, toks => do
    let (c, toks) ← parseCommandF f toks
    let (t, toks') ← readToken toks
    match t.kind with
    | Kind.pipe => do
      let (p, rest) ← parsePipelineF f toks'
      Except.ok (Pipeline.mk (c :: p.commands) p.sync, rest)
    | _ => Except.ok (Pipeline.mk [c] false, t :: toks')

/-- `Parser::parse_command`: `(` starts a subshell, anything else is
unread and parsed as a simple command. -/
def parseCommandF : Nat → List Token → Except Err (Command × List Token)
  | 0, _ => Except.error fuelErr
  | f + 1, toks => do
    let (t, toks') ← readToken toks
    match t.kind with
    | Kind.openBrace => parseSubshellF f toks'
    | _ => parseSimpleCommand (t :: toks')

/-- `Parser::parse_subshell` (the `(` token is already consumed): inner
complete command, a `)` token, then redirections. -/
def parseSubshellF : Nat → List Token → Except Err (Command × List Token)
  | 0, _ => Except.error fuelErr
  | f + 1, toks => do
    let (cc, toks) ← parseCompleteCommandF f toks
    let (t, toks') ← readToken toks
    match t.kind with
    | Kind.closeBrace => do
      let (rl, rest) ← parseRedirs toks'
      Except.ok (Command.subshell (Subshell.mk cc rl), rest)
    | _ => Except.error ⟨"expected ')' token"⟩

end

/-- Instrumented variant of `parseCompleteCommandF` that additionally
records, for each parsed pipeline, the kind of the terminator token that
classified it.  Used only to state the terminator/sync correspondence;
`parseCompleteCommandF_toTerms` proves that it agrees with
`parseCompleteCommandF`. -/
def parseCompleteCommandT : Nat → List Token → Except Err (List (Pipeline × Kind) × List Token)
  | 0, _ => Except.error fuelErr
  | f + 1, toks => do
    let (p, toks) ← parsePipelineF f toks
    let (t, toks') ← readToken toks
    match t.kind with
    | Kind.semicolon => do
      let (ps, rest) ← parseCompleteCommandT f toks'
      Except.ok ((Pipeline.mk p.commands true, t.kind) :: ps, rest)
    | Kind.ampersand => do
      let (ps, rest) ← parseCompleteCommandT f toks'
      Except.ok ((Pipeline.mk p.commands false, t.kind) :: ps, rest)
    | Kind.endOfLine => Except.ok ([(Pipeline.mk p.commands true, t.kind)], t :: toks')
    | Kind.closeBrace => Except.ok ([(Pipeline.mk p.commands true, t.kind)], t :: toks')
    | _ => Except.error ⟨"expected ;&) or EOL"⟩

/-- Fuel supplied by the top-level parse: generous enough for every
terminating run of the Rust parser (proved sufficient below for the
round-trip streams). -/
def parseFuel (toks : List Token) : Nat := 8 * toks.length + 16

/-- `Parser::run`: parse a complete command, then expect `EndOfLine`. -/
def parseRun (f : Nat) (toks : List Token) : Except Err CompleteCommand := do
  let (cc, toks) ← parseCompleteCommandF f toks
  let (t, _) ← readToken toks
  match t.kind with
  | Kind.endOfLine => Except.ok cc
  | _ => Except.error ⟨"expected EOL"⟩

/-- `parser::parse`: parses the incoming sequence of tokens. -/
def parse (toks : List Token) : Except Err CompleteCommand :=
  parseRun (parseFuel toks) toks

/-! ## Execution plan (`translator.rs`, data types) -/

/-- A single, standalone command (`translator.rs`, `SingleCommand`). -/
structure SingleCommand where
  arguments : List String
  input : Option InputRedir
  output : Option OutputRedir
  sync : Bool
deriving DecidableEq, Repr

/-- The source command of a pipeline (`translator.rs`, `SourceCommand`). -/
structure SourceCommand where
  arguments : List String
  input : Option InputRedir
deriving DecidableEq, Repr

/-- A filter command in the middle of a pipeline (`translator.rs`,
`FilterCommand`). -/
structure FilterCommand where
  arguments : List String
deriving DecidableEq, Repr

/-- The sink command of a pipeline (`translator.rs`, `SinkCommand`). -/
structure SinkCommand where
  arguments : List String
  output : Option OutputRedir
deriving DecidableEq, Repr

/-- A pipeline of source, filters and sink (`translator.rs`,
`PipelinedCommands`). -/
structure PipelinedCommands where
  source : SourceCommand
  filters : List FilterCommand
  sink : SinkCommand
  sync : Bool
deriving DecidableEq, Repr

/-- A command that is run serially (`translator.rs`,
`CompoundSerialCommand`). -/
inductive CompoundSerialCommand where
  | singleCommand (sc : SingleCommand)
  | pipelinedCommands (pc : PipelinedCommands)
deriving DecidableEq, Repr

/-- A list of commands to run serially (`translator.rs`,
`ListOfCommands`). -/
structure ListOfCommands where
  pipelines : List CompoundSerialCommand
deriving DecidableEq, Repr

/-- The sync flag carried by a compound serial command. -/
def CompoundSerialCommand.syncFlag : CompoundSerialCommand → Bool
  | .singleCommand sc => sc.sync
  | .pipelinedCommands pc => pc.sync

/-! ## Translator (`translator.rs`)

`Translator::get_current_exe` calls `std::env::current_exe()`; the
embedding models a successful resolution by the `exe` field of the
`Translator` structure (claim C9 is conditioned on the resolution
succeeding; a resolution failure is an OS outcome outside the embedded
state). -/

/-- The translator (`translator.rs`, `Translator`), with the resolved
current-executable path as environment. -/
structure Translator where
  verbose : Bool
  exe : String
deriving DecidableEq, Repr

/-- `Translator::subshell`: replace a subshell by a synthetic simple
command invoking the current executable with `-c` (plus `-x` when
verbose) on the serialized inner tree, reusing the subshell's
redirections. -/
def Translator.subshellT (tr : Translator) (ss : Subshell) : Except Err SimpleCommand := do
  let s ← serializeCompleteCommand ss.complete_command
  Except.ok
    { arguments := [tr.exe] ++ (if tr.verbose then ["-x"] else []) ++ ["-c", s]
      redirs := ss.redirs }

/-- `Translator::command`: a simple command passes through, a subshell is
replaced by its synthetic simple command. -/
def Translator.commandT (tr : Translator) : Command → Except Err SimpleCommand
  | .simpleCommand cmd => Except.ok cmd
  | .subshell ss => tr.subshellT ss

/-- The command-visiting loop of `Translator::pipeline`. -/
def Translator.commandsT (tr : Translator) : List Command → Except Err (List SimpleCommand)
  | [] => Except.ok []
  | c :: rest => do
    let scmd ← tr.commandT c
    let rest' ← tr.commandsT rest
    Except.ok (scmd :: rest')

/-- `Translator::single_command`: at most one input and at most one
output redirection. -/
def Translator.single_commandT (input : SimpleCommand) (sync : Bool) :
    Except Err CompoundSerialCommand :=
  if input.redirs.input.length > 1 then
    Except.error ⟨"more than one input redirection"⟩
  else if input.redirs.output.length > 1 then
    Except.error ⟨"more than one output redirection"⟩
  else
    Except.ok (CompoundSerialCommand.singleCommand
      { arguments := input.arguments
        input := input.redirs.input.head?
        output := input.redirs.output.head?
        sync := sync })

/-- `Translator::new_source`: at most one input redirection and no output
redirection. -/
def Translator.new_source : List SimpleCommand → Except Err (SourceCommand × List SimpleCommand)
  | [] => Except.error ⟨"unexpected empty deque"⟩
  | item :: rest =>
    if item.redirs.input.length > 1 then
      Except.error ⟨"more than one input redirection"⟩
    else if item.redirs.output.length > 0 then
      Except.error ⟨"output redirection for pipeline source"⟩
    else
      Except.ok ({ arguments := item.arguments, input := item.redirs.input.head? }, rest)

/-- `Translator::new_filters`: every command but the last becomes a
filter, which accepts no redirection at all. -/
def Translator.new_filters : List SimpleCommand → Except Err (List FilterCommand × List SimpleCommand)
  | e :: f :: rest =>
    if e.redirs.input.length > 0 then
      Except.error ⟨"input redirection for pipeline filter"⟩
    else if e.redirs.output.length > 0 then
      Except.error ⟨"output redirection for pipeline filter"⟩
    else do
      let (fs, rem) ← Translator.new_filters (f :: rest)
      Except.ok (({ arguments := e.arguments } : FilterCommand) :: fs, rem)
  | xs => Except.ok ([], xs)

/-- `Translator::new_sink`: no input redirection and at most one output
redirection. -/
def Translator.new_sink : List SimpleCommand → Except Err SinkCommand
  | [] => Except.error ⟨"unexpected empty deque"⟩
  | item :: _ =>
    if item.redirs.input.length > 0 then
      Except.error ⟨"input redirection for pipeline sink"⟩
    else if item.redirs.output.length > 1 then
      Except.error ⟨"more than one output redirection"⟩
    else
      Except.ok { arguments := item.arguments, output := item.redirs.output.head? }

/-- `Translator::pipelined_commands`: source, then filters, then sink. -/
def Translator.pipelined_commandsT (input : List SimpleCommand) (sync : Bool) :
    Except Err CompoundSerialCommand := do
  let (source, rest) ← Translator.new_source input
  let (filters, rest) ← Translator.new_filters rest
  let sink ← Translator.new_sink rest
  Except.ok (CompoundSerialCommand.pipelinedCommands
    { source := source, filters := filters, sink := sink, sync := sync })

/-- `Translator::pipeline`: translate every command, then emit a
`SingleCommand` for one intermediate command and a `PipelinedCommands`
for two or more, propagating the pipeline's `sync` flag. -/
def Translator.pipelineT (tr : Translator) (input : Pipeline) :
    Except Err CompoundSerialCommand := do
  let intermediate ← tr.commandsT input.commands
  match intermediate with
  | [] => Except.error ⟨"no intermediate commands"⟩
  | [f] => Translator.single_commandT f input.sync
  | f :: g :: rest => Translator.pipelined_commandsT (f :: g :: rest) input.sync

/-- The pipeline-visiting loop of `Translator::complete_command`: empty
pipelines are skipped. -/
def Translator.complete_commandT (tr : Translator) : List Pipeline → Except Err (List CompoundSerialCommand)
  | [] => Except.ok []
  | p :: rest =>
    if p.commands.length < 1 then tr.complete_commandT rest
    else do
      let csc ← tr.pipelineT p
      let rest' ← tr.complete_commandT rest
      Except.ok (csc :: rest')

/-- `translator::translate`: translates the syntax tree to make it
interpretable. -/
def translate (tr : Translator) (cc : CompleteCommand) : Except Err ListOfCommands := do
  let ps ← tr.complete_commandT cc.pipelines
  Except.ok ⟨ps⟩

/-! ## Interpreter (`interp.rs`)

The interpreter touches the OS: it opens files, creates pipes, spawns,
kills and waits for child processes, and changes the working directory.
The embedding keeps the interpreter's control flow exact and models the
OS by (a) an environment `IEnv` of oracles deciding the outcome of each
OS call, and (b) an event trace recording every observable action.
Children are identified by their spawn sequence number; pipes by their
creation sequence number.  `std::fs::OpenOptions` is modelled by the
`OpenOpts` flag record so that the exact flags used by
`Interpreter::maybe_redirect_output` are visible. -/

/-- The open flags of `std::fs::OpenOptions` that `interp.rs` touches
(every flag defaults to false, as in `OpenOptions::new()`). -/
structure OpenOpts where
  write : Bool := false
  create : Bool := false
  append : Bool := false
  truncate : Bool := false
deriving DecidableEq, Repr

/-- The open options built by `Interpreter::maybe_redirect_output` for an
output redirection: `OpenOptions::new().write(true).create(true)
.append(!output.overwrite)`.  No other flag is set. -/
def outputOpenOpts (output : OutputRedir) : OpenOpts :=
  { write := true, create := true, append := !output.overwrite }

/-- POSIX semantics of opening a file with the given flags and having the
child write `written` into it from the initial file offset: truncation
empties the file first; append mode writes after the old contents; plain
write mode overwrites from offset zero, leaving any longer tail of the
old contents in place. -/
def OpenOpts.resultingContents (opts : OpenOpts) (old written : List Char) : List Char :=
  if opts.truncate then written
  else if opts.append then old ++ written
  else written ++ old.drop written.length

/-- A standard stream handed to a spawned child: a redirected file or one
end of an anonymous pipe. -/
inductive StdioTag where
  | file (name : String)
  | pipeEnd (id : Nat)
deriving DecidableEq, Repr

/-- Observable interpreter actions. -/
inductive Event where
  | spawned (id : Nat) (argv0 : String) (args : List String)
  | killed (id : Nat)
  | waited (id : Nat)
  | backgrounded (id : Nat)
  | openedIn (filename : String)
  | openedOut (filename : String) (overwrite : Bool)
deriving DecidableEq, Repr

/-- Oracles deciding the outcome of each OS call. -/
structure IEnv where
  spawnOk : Nat → Bool
  openInOk : String → Bool
  openOutOk : String → Bool
  pipeOk : Nat → Bool
  cdOk : String → Bool

/-- Interpreter state: spawn counter, pipe counter, event trace. -/
structure ISt where
  nspawn : Nat
  npipe : Nat
  events : List Event
deriving DecidableEq, Repr

/-- `Interpreter::maybe_redirect_input`: open the input file read-only if
an input redirection is present. -/
def maybeRedirectInput (env : IEnv) (input : Option InputRedir) (st : ISt) :
    Except Err (Option StdioTag) × ISt :=
  match input with
  | none => (Except.ok none, st)
  | some i =>
    if env.openInOk i.filename then
      (Except.ok (some (StdioTag.file i.filename)),
       { st with events := st.events ++ [Event.openedIn i.filename] })
    else
      (Except.error ⟨"cannot open for reading: " ++ i.filename⟩, st)

/-- `Interpreter::maybe_redirect_output`: open the output file with the
flags of `outputOpenOpts` if an output redirection is present. -/
def maybeRedirectOutput (env : IEnv) (output : Option OutputRedir) (st : ISt) :
    Except Err (Option StdioTag) × ISt :=
  match output with
  | none => (Except.ok none, st)
  | some o =>
    if env.openOutOk o.filename then
      (Except.ok (some (StdioTag.file o.filename)),
       { st with events := st.events ++ [Event.openedOut o.filename o.overwrite] })
    else
      (Except.error ⟨"cannot open for writing: " ++ o.filename⟩, st)

/-- `Interpreter::wrap_os_pipe`: create an anonymous pipe; both ends
carry the pipe's creation sequence number. -/
def wrapOsPipe (env : IEnv) (st : ISt) : Except Err (Nat × Nat) × ISt :=
  let n := st.npipe
  if env.pipeOk n then
    (Except.ok (n, n), { st with npipe := n + 1 })
  else
    (Except.error ⟨"cannot create pipe"⟩, { st with npipe := n + 1 })

/-- `Interpreter::common_executor` / `process::spawn`: spawn a child with
the given argv and stdio wiring; on success the child's id is its spawn
sequence number. -/
def commonExecutor (env : IEnv) (argv0 : String) (args : List String)
    (stdin stdout : Option StdioTag) (st : ISt) : Except Err Nat × ISt :=
  let n := st.nspawn
  if env.spawnOk n then
    (Except.ok n,
     { st with
        nspawn := n + 1
        events := st.events ++ [Event.spawned n argv0 args] })
  else
    (Except.error ⟨"spawn failed"⟩, { st with nspawn := n + 1 })

/-- `Interpreter::builtin_cd`: exactly one argument, then change the
working directory. -/
def builtinCd (env : IEnv) (args : List String) : Except Err Unit :=
  if args.length ≠ 1 then Except.error ⟨"usage: cd <directory>"⟩
  else
    match args with
    | [d] => if env.cdOk d then Except.ok () else Except.error ⟨"chdir failed"⟩
    | _ => Except.error ⟨"usage: cd <directory>"⟩

/-- `Interpreter::wait_for_children`: wait for every child, popping from
the back of the deque (sink first). -/
def waitForChildren (children : List Nat) (st : ISt) : ISt :=
  { st with events := st.events ++ children.reverse.map Event.waited }

/-- `Interpreter::kill_children`: best-effort kill of every child in
order, then wait for all of them. -/
def killChildren (children : List Nat) (st : ISt) : ISt :=
  waitForChildren children
    { st with events := st.events ++ children.map Event.killed }

/-- `Interpreter::single_command`: an empty argument list is a silent
no-op; `cd` runs the builtin; otherwise open the redirections, spawn,
and wait when `sync` (or hand the child to the background manager). -/
def singleCommand (env : IEnv) (sc : SingleCommand) (st : ISt) :
    Except Err Unit × ISt :=
  match sc.arguments with
  | [] => (Except.ok (), st)
  | argv0 :: args =>
    if argv0 = "cd" then (builtinCd env args, st)
    else
      match maybeRedirectInput env sc.input st with
      | (Except.error e, st) => (Except.error e, st)
      | (Except.ok rin, st) =>
        match maybeRedirectOutput env sc.output st with
        | (Except.error e, st) => (Except.error e, st)
        | (Except.ok rout, st) =>
          match commonExecutor env argv0 args rin rout st with
          | (Except.error e, st) => (Except.error e, st)
          | (Except.ok chld, st) =>
            if sc.sync then
              (Except.ok (), { st with events := st.events ++ [Event.waited chld] })
            else
              (Except.ok (), { st with events := st.events ++ [Event.backgrounded chld] })

/-- `Interpreter::source_command`: non-empty argv, optional input file,
fresh pipe, spawn with stdout on the pipe's write end. -/
def sourceCommand (env : IEnv) (sc : SourceCommand) (st : ISt) :
    Except Err (Nat × Nat) × ISt :=
  match sc.arguments with
  | [] => (Except.error ⟨"pipeline with empty source command"⟩, st)
  | argv0 :: args =>
    match maybeRedirectInput env sc.input st with
    | (Except.error e, st) => (Except.error e, st)
    | (Except.ok rin, st) =>
      match wrapOsPipe env st with
      | (Except.error e, st) => (Except.error e, st)
      | (Except.ok (crx, cwx), st) =>
        match commonExecutor env argv0 args rin (some (StdioTag.pipeEnd cwx)) st with
        | (Except.error e, st) => (Except.error e, st)
        | (Except.ok child, st) => (Except.ok (child, crx), st)

/-- `Interpreter::filter_command`: non-empty argv, fresh pipe, spawn with
stdin on the previous pipe's read end and stdout on the new pipe's write
end. -/
def filterCommand (env : IEnv) (fc : FilterCommand) (rx : Nat) (st : ISt) :
    Except Err (Nat × Nat) × ISt :=
  match fc.arguments with
  | [] => (Except.error ⟨"pipeline with empty filter command"⟩, st)
  | argv0 :: args =>
    match wrapOsPipe env st with
    | (Except.error e, st) => (Except.error e, st)
    | (Except.ok (crx, cwx), st) =>
      match commonExecutor env argv0 args (some (StdioTag.pipeEnd rx))
          (some (StdioTag.pipeEnd cwx)) st with
      | (Except.error e, st) => (Except.error e, st)
      | (Except.ok child, st) => (Except.ok (child, crx), st)

/-- `Interpreter::sink_command`: non-empty argv, optional output file,
spawn with stdin on the last pipe's read end. -/
def sinkCommand (env : IEnv) (sc : SinkCommand) (rx : Nat) (st : ISt) :
    Except Err Nat × ISt :=
  match sc.arguments with
  | [] => (Except.error ⟨"pipeline with empty sink command"⟩, st)
  | argv0 :: args =>
    match maybeRedirectOutput env sc.output st with
    | (Except.error e, st) => (Except.error e, st)
    | (Except.ok rou, st) =>
      commonExecutor env argv0 args (some (StdioTag.pipeEnd rx)) rou st

/-- The filter loop of `Interpreter::pipelined_commands`: each spawned
filter is appended to the children deque; a failure kills and waits every
child already spawned and surfaces the error. -/
def filtersLoop (env : IEnv) : List FilterCommand → List Nat → Nat → ISt →
    Except Err (List Nat × Nat) × ISt
  | [], children, rx, st => (Except.ok (children, rx), st)
  | f :: rest, children, rx, st =>
    match filterCommand env f rx st with
    | (Except.error e, st) => (Except.error ⟨e.reason⟩, killChildren children st)
    | (Except.ok (child, rx'), st) =>
      filtersLoop env rest (children ++ [child]) rx' st

/-- `Interpreter::pipelined_commands`: spawn source, filters and sink in
order, killing and waiting every already-spawned child on a failure;
after a full spawn, wait for all children when `sync`, otherwise hand the
whole group to the background manager (`process::addq`). -/
def pipelinedCommands (env : IEnv) (pc : PipelinedCommands) (st : ISt) :
    Except Err Unit × ISt :=
  match sourceCommand env pc.source st with
  | (Except.error e, st) => (Except.error e, st)
  | (Except.ok (child, rx), st) =>
    match filtersLoop env pc.filters [child] rx st with
    | (Except.error e, st) => (Except.error e, st)
    | (Except.ok (children, rx), st) =>
      match sinkCommand env pc.sink rx st with
      | (Except.error e, st) => (Except.error ⟨e.reason⟩, killChildren children st)
      | (Except.ok child, st) =>
        let children := children ++ [child]
        if pc.sync then
          (Except.ok (), waitForChildren children st)
        else
          (Except.ok (), { st with events := st.events ++ children.map Event.backgrounded })

/-- `Interpreter::compound_serial_command`. -/
def compoundSerialCommand (env : IEnv) (csc : CompoundSerialCommand) (st : ISt) :
    Except Err Unit × ISt :=
  match csc with
  | .singleCommand sc => singleCommand env sc st
  | .pipelinedCommands pc => pipelinedCommands env pc st

/-- `Interpreter::run`: execute the plan's compound commands in order,
stopping at the first error. -/
def interpRun (env : IEnv) : List CompoundSerialCommand → ISt → Except Err Unit × ISt
  | [], st => (Except.ok (), st)
  | c :: rest, st =>
    match compoundSerialCommand env c st with
    | (Except.error e, st) => (Except.error e, st)
    | (Except.ok _, st) => interpRun env rest st

/-- `interp::interpret` on a plan, starting from the given state. -/
def interpret (env : IEnv) (loc : ListOfCommands) (st : ISt) :
    Except Err Unit × ISt :=
  interpRun env loc.pipelines st

/-- An environment in which every OS call succeeds. -/
def allOkEnv : IEnv :=
  { spawnOk := fun _ => true
    openInOk := fun _ => true
    openOutOk := fun _ => true
    pipeOk := fun _ => true
    cdOk := fun _ => true }

/-- The initial interpreter state. -/
def initSt : ISt := ⟨0, 0, []⟩

/-- Some child with the given id was spawned in the event list. -/
def spawnedIn (evs : List Event) (id : Nat) : Prop :=
  ∃ a b, Event.spawned id a b ∈ evs

/-! ## Recursive tree predicates

Decidable predicates over parse trees used to state the parser's
invariants: every pipeline anywhere in the tree (including inside
subshells) has at least one command. -/

mutual

/-- Every pipeline in the complete command, recursively, is non-empty. -/
def ccPipesNonempty : CompleteCommand → Bool
  | .mk ps => psPipesNonempty ps

/-- `ccPipesNonempty` over a pipeline list. -/
def psPipesNonempty : List Pipeline → Bool
  | [] => true
  | p :: rest => plPipesNonempty p && psPipesNonempty rest

/-- A pipeline is non-empty and so is, recursively, every pipeline
inside its commands. -/
def plPipesNonempty : Pipeline → Bool
  | .mk cs _ => !cs.isEmpty && csPipesNonempty cs

/-- `plPipesNonempty` over a command list. -/
def csPipesNonempty : List Command → Bool
  | [] => true
  | c :: rest => cPipesNonempty c && csPipesNonempty rest

/-- Every pipeline inside a command, recursively, is non-empty. -/
def cPipesNonempty : Command → Bool
  | .simpleCommand _ => true
  | .subshell (Subshell.mk cc _) => ccPipesNonempty cc

end

/-- Parser invariant of a command: recursively non-empty pipelines, and
the serializer succeeds on it. -/
def CmdInv (c : Command) : Prop :=
  cPipesNonempty c = true ∧ ∃ s, serializeCommand c = Except.ok s

/-- Parser invariant of a pipeline: at least one command, each command
well-formed, and the serializer succeeds on the pipeline. -/
def PipelineInv (p : Pipeline) : Prop :=
  plPipesNonempty p = true ∧ (∀ c ∈ p.commands, CmdInv c) ∧
    ∃ s, serializePipeline p = Except.ok s

/-- Parser invariant of a complete command. -/
def CCInv (cc : CompleteCommand) : Prop :=
  ccPipesNonempty cc = true ∧ (∀ p ∈ cc.pipelines, PipelineInv p) ∧
    ∃ s, serializeCompleteCommand cc = Except.ok s

/-! ## Spec-side statement of the per-position redirection rules -/

/-- The redirection list a command carries into translation: a simple
command contributes its own redirections, a subshell its group
redirections (which `Translator::subshell` transfers verbatim onto the
synthetic simple command). -/
def cmdRedirs : Command → RedirectList
  | .simpleCommand sc => sc.redirs
  | .subshell ss => ss.redirs

/-- Stated from the spec for comparison with the translator: the
per-position redirection rules over the list of redirection lists of a
pipeline's commands, paired with the error message the spec assigns to
each rule.  A single command allows at most one input and one output
redirection; in a longer pipeline the source allows at most one input
and no output, filters (the middle commands) allow nothing, and the sink
allows no input and at most one output. -/
def specViolationMsgR (rs : List RedirectList) (e : Err) : Prop :=
  match rs with
  | [] => False
  | [r] =>
    (r.input.length > 1 ∧ e = ⟨"more than one input redirection"⟩) ∨
    (r.output.length > 1 ∧ e = ⟨"more than one output redirection"⟩)
  | r :: rs =>
    (r.input.length > 1 ∧ e = ⟨"more than one input redirection"⟩) ∨
    (r.output.length > 0 ∧ e = ⟨"output redirection for pipeline source"⟩) ∨
    ((∃ q ∈ rs.dropLast, q.input.length > 0) ∧
      e = ⟨"input redirection for pipeline filter"⟩) ∨
    ((∃ q ∈ rs.dropLast, q.output.length > 0) ∧
      e = ⟨"output redirection for pipeline filter"⟩) ∨
    ((∃ q, rs.getLast? = some q ∧ q.input.length > 0) ∧
      e = ⟨"input redirection for pipeline sink"⟩) ∨
    ((∃ q, rs.getLast? = some q ∧ q.output.length > 1) ∧
      e = ⟨"more than one output redirection"⟩)

/-- A per-position redirection rule of the spec is violated in the
pipeline, with `e` the matching message. -/
def specViolationMsg (p : Pipeline) (e : Err) : Prop :=
  specViolationMsgR (p.commands.map cmdRedirs) e

/-- Some per-position redirection rule of the spec is violated. -/
def specRedirViolation (p : Pipeline) : Prop :=
  ∃ e, specViolationMsg p e

/-! ## Round-trip support: serializable trees without quoting hazards

The serializer writes words verbatim, so the round-trip through the
scanner and parser can only recover trees whose words are non-empty and
free of whitespace and operator characters, whose pipelines are all
synchronous (the serializer never regenerates `&`), and whose commands
are simple with at most one input and one output redirection (the
serializer emits only the first of each). -/

/-- A character the scanner treats as part of a word: not whitespace and
not an operator. -/
def isWordChar (c : Char) : Bool :=
  !(c = ' ' || c = '\t' || c = '|' || c = '(' || c = ')' || c = ';' ||
    c = '&' || c = '<' || c = '>')

/-- A word the serializer can round-trip: non-empty, all word
characters. -/
def niceWord (w : String) : Bool :=
  !w.data.isEmpty && w.data.all isWordChar

/-- Redirections the serializer can round-trip: at most one input and
one output, with round-trippable filenames. -/
def niceRedirs (rl : RedirectList) : Bool :=
  decide (rl.input.length ≤ 1) && decide (rl.output.length ≤ 1) &&
  rl.input.all (fun i => niceWord i.filename) &&
  rl.output.all (fun o => niceWord o.filename)

/-- Commands the serializer can round-trip: simple, with round-trippable
words and redirections. -/
def niceCommand : Command → Bool
  | .simpleCommand sc => sc.arguments.all niceWord && niceRedirs sc.redirs
  | .subshell _ => false

/-- Pipelines the serializer can round-trip: synchronous and non-empty,
with round-trippable commands. -/
def nicePipeline (p : Pipeline) : Bool :=
  p.sync && !p.commands.isEmpty && p.commands.all niceCommand

/-- Complete commands the serializer can round-trip. -/
def niceCC (cc : CompleteCommand) : Bool :=
  !cc.pipelines.isEmpty && cc.pipelines.all nicePipeline

/-- The word token the scanner produces for a word. -/
def wordTok (w : String) : Token := ⟨Kind.commandOrArgument, w⟩

/-- The token sequence the scanner produces for a serialized redirect
list: `<` and the input filename, then `>` or `>>` and the output
filename. -/
def redirToks (rl : RedirectList) : List Token :=
  (match rl.input with
   | [] => []
   | i :: _ => [opToken Kind.minor, wordTok i.filename]) ++
  (match rl.output with
   | [] => []
   | o :: _ =>
     [opToken (if o.overwrite then Kind.major else Kind.majorMajor), wordTok o.filename])

/-- The token sequence the scanner produces for a serialized command. -/
def cmdToks : Command → List Token
  | .simpleCommand sc => sc.arguments.map wordTok ++ redirToks sc.redirs
  | .subshell _ => []

/-- The token sequence the scanner produces for a serialized pipeline:
commands joined by `|`. -/
def plToks : List Command → List Token
  | [] => []
  | [c] => cmdToks c
  | c :: rest => cmdToks c ++ [opToken Kind.pipe] ++ plToks rest

/-- The token sequence the scanner produces for a serialized complete
command: pipelines joined by `;`. -/
def ccToks : List Pipeline → List Token
  | [] => []
  | [p] => plToks p.commands
  | p :: rest => plToks p.commands ++ [opToken Kind.semicolon] ++ ccToks rest

/-- The continuation after a serialized fragment starts with an operator
or whitespace character (or is empty), so the scanner flushes any
pending word at the boundary. -/
def opStart (cs : List Char) : Prop :=
  match cs with
  | [] => True
  | c :: _ => isWordChar c = false

/-- A token kind that ends a simple command: an operator the parser
unreads. -/
def stopTok (t : Token) : Prop :=
  t.kind = Kind.pipe ∨ t.kind = Kind.semicolon ∨ t.kind = Kind.ampersand ∨
  t.kind = Kind.endOfLine ∨ t.kind = Kind.closeBrace

/-- A token kind that ends a pipeline (a stop token other than `|`). -/
def plStop (t : Token) : Prop :=
  t.kind = Kind.semicolon ∨ t.kind = Kind.ampersand ∨
  t.kind = Kind.endOfLine ∨ t.kind = Kind.closeBrace

/-- Fuel needed by `parseCompleteCommandF` on the round-trip token
stream of a list of pipelines. -/
def needCC : List Pipeline → Nat
  | [] => 1
  | p :: rest => p.commands.length + 2 + needCC rest

/-! ## Concrete values used by individual claims -/

/-- The parse tree the parser actually produces for the line `echo |`:
a single pipeline of two simple commands, the second having no words. -/
def ccEchoPipe : CompleteCommand :=
  CompleteCommand.mk
    [Pipeline.mk
      [Command.simpleCommand ⟨["echo"], ⟨[], []⟩⟩,
       Command.simpleCommand ⟨[], ⟨[], []⟩⟩] true]

/-- The plan the translator produces for `ccEchoPipe`: a pipeline whose
sink has an empty argv. -/
def locEchoPipe : ListOfCommands :=
  ⟨[CompoundSerialCommand.pipelinedCommands
    { source := { arguments := ["echo"], input := none }
      filters := []
      sink := { arguments := [], output := none }
      sync := true }]⟩

/-- A demonstration subshell, `( echo a ) <log` as a tree. -/
def ssDemo : Subshell :=
  Subshell.mk
    (CompleteCommand.mk [Pipeline.mk [Command.simpleCommand ⟨["echo", "a"], ⟨[], []⟩⟩] true])
    ⟨[⟨"log"⟩], []⟩

/-- A complete command inside the claimed C4 domain (simple commands,
clean words) that does not round-trip: one asynchronous pipeline. -/
def ccSyncFalse : CompleteCommand :=
  CompleteCommand.mk [Pipeline.mk [Command.simpleCommand ⟨["a"], ⟨[], []⟩⟩] false]

/-- A concrete serializable tree used to witness the amended C4. -/
def ccNiceDemo : CompleteCommand :=
  CompleteCommand.mk
    [Pipeline.mk
      [Command.simpleCommand ⟨["ls", "-l"], ⟨[⟨"in.txt"⟩], [⟨"out.txt", true⟩]⟩⟩,
       Command.simpleCommand ⟨["wc"], ⟨[], []⟩⟩] true,
     Pipeline.mk [Command.simpleCommand ⟨["echo", "done"], ⟨[], [⟨"log", false⟩]⟩⟩] true]

/-!
# Supporting lemmas

## Scanner branch equations and invariants
-/

/-- `lexRun` on exhausted input: flush, then `EndOfLine`. -/
theorem lexRun_nil (buff : List Char) :
    lexRun [] buff = flushBuff buff ++ [opToken Kind.endOfLine] := by
  rw [lexRun.eq_def]

/-- `lexRun` on whitespace: flush, no token. -/
theorem lexRun_space (c : Char) (rest buff : List Char) (hc : c = ' ' ∨ c = '\t') :
    lexRun (c :: rest) buff = flushBuff buff ++ lexRun rest [] := by
  rw [lexRun.eq_def]; simp only [if_pos hc]

/-- `lexRun` on `|`. -/
theorem lexRun_pipe (rest buff : List Char) :
    lexRun ('|' :: rest) buff = flushBuff buff ++ ([opToken Kind.pipe] ++ lexRun rest []) := by
  rw [lexRun.eq_def]; simp

/-- `lexRun` on `(`. -/
theorem lexRun_openBrace (rest buff : List Char) :
    lexRun ('(' :: rest) buff = flushBuff buff ++ ([opToken Kind.openBrace] ++ lexRun rest []) := by
  rw [lexRun.eq_def]; simp

/-- `lexRun` on `)`. -/
theorem lexRun_closeBrace (rest buff : List Char) :
    lexRun (')' :: rest) buff = flushBuff buff ++ ([opToken Kind.closeBrace] ++ lexRun rest []) := by
  rw [lexRun.eq_def]; simp

/-- `lexRun` on `;`. -/
theorem lexRun_semicolon (rest buff : List Char) :
    lexRun (';' :: rest) buff = flushBuff buff ++ ([opToken Kind.semicolon] ++ lexRun rest []) := by
  rw [lexRun.eq_def]; simp

/-- `lexRun` on `&`. -/
theorem lexRun_ampersand (rest buff : List Char) :
    lexRun ('&' :: rest) buff = flushBuff buff ++ ([opToken Kind.ampersand] ++ lexRun rest []) := by
  rw [lexRun.eq_def]; simp

/-- `lexRun` on `<`. -/
theorem lexRun_minor (rest buff : List Char) :
    lexRun ('<' :: rest) buff = flushBuff buff ++ ([opToken Kind.minor] ++ lexRun rest []) := by
  rw [lexRun.eq_def]; simp

/-- `lexRun` on `>>`. -/
theorem lexRun_majorMajor (rest2 buff : List Char) :
    lexRun ('>' :: '>' :: rest2) buff =
      flushBuff buff ++ ([opToken Kind.majorMajor] ++ lexRun rest2 []) := by
  rw [lexRun.eq_def]; simp

/-- `lexRun` on `>` not followed by `>`. -/
theorem lexRun_major (c2 : Char) (rest2 buff : List Char) (hc2 : c2 ≠ '>') :
    lexRun ('>' :: c2 :: rest2) buff =
      flushBuff buff ++ ([opToken Kind.major] ++ lexRun (c2 :: rest2) []) := by
  rw [lexRun.eq_def]; simp [hc2]

/-- `lexRun` on a trailing `>`. -/
theorem lexRun_major_eol (buff : List Char) :
    lexRun ['>'] buff =
      flushBuff buff ++ ([opToken Kind.major] ++ [opToken Kind.endOfLine]) := by
  rw [lexRun.eq_def]; simp

/-- `lexRun` on an ordinary word character. -/
theorem lexRun_word (c : Char) (rest buff : List Char)
    (h1 : ¬(c = ' ' ∨ c = '\t')) (h2 : c ≠ '|') (h3 : c ≠ '(') (h4 : c ≠ ')')
    (h5 : c ≠ ';') (h6 : c ≠ '&') (h7 : c ≠ '<') (h8 : c ≠ '>') :
    lexRun (c :: rest) buff = lexRun rest (buff ++ [c]) := by
  rw [lexRun.eq_def]
  simp only [if_neg h1, if_neg h2, if_neg h3, if_neg h4, if_neg h5, if_neg h6, if_neg h7,
    if_neg h8]

/-- Tokens flushed from the word buffer are non-empty words. -/
theorem mem_flushBuff {t : Token} {buff : List Char} (h : t ∈ flushBuff buff) :
    t.kind = Kind.commandOrArgument ∧ t.value ≠ "" := by
  unfold flushBuff at h
  split at h
  · simp at h
  · rename_i hb
    simp at h
    subst h
    refine ⟨rfl, fun hv => hb (congrArg String.data hv)⟩

/-- Flushed tokens are never `EndOfLine` and never empty words. -/
theorem goodPre_flush (buff : List Char) :
    ∀ t ∈ flushBuff buff,
      t.kind ≠ Kind.endOfLine ∧ (t.kind = Kind.commandOrArgument → t.value ≠ "") := by
  intro t ht
  obtain ⟨h1, h2⟩ := mem_flushBuff ht
  exact ⟨by rw [h1]; decide, fun _ => h2⟩

/-- Prepending tokens that are neither `EndOfLine` nor empty words
preserves the scanner's output invariants. -/
theorem spec_prepend (pre ts : List Token)
    (hpre : ∀ t ∈ pre, t.kind ≠ Kind.endOfLine ∧ (t.kind = Kind.commandOrArgument → t.value ≠ ""))
    (h1 : ts.getLast? = some (opToken Kind.endOfLine))
    (h2 : ts.countP (fun t => decide (t.kind = Kind.endOfLine)) = 1)
    (h3 : ∀ t ∈ ts, t.kind = Kind.commandOrArgument → t.value ≠ "") :
    (pre ++ ts).getLast? = some (opToken Kind.endOfLine) ∧
    (pre ++ ts).countP (fun t => decide (t.kind = Kind.endOfLine)) = 1 ∧
    ∀ t ∈ pre ++ ts, t.kind = Kind.commandOrArgument → t.value ≠ "" := by
  have hts : ts ≠ [] := by intro h; subst h; simp at h1
  refine ⟨?_, ?_, ?_⟩
  · rw [List.getLast?_append_of_ne_nil _ hts]; exact h1
  · rw [List.countP_append, h2]
    have h0 : pre.countP (fun t => decide (t.kind = Kind.endOfLine)) = 0 :=
      List.countP_eq_zero.mpr (fun t ht => by simpa using (hpre t ht).1)
    omega
  · intro t ht
    rcases List.mem_append.mp ht with h | h
    · exact (hpre t h).2
    · exact h3 t h

/-- The flush-then-operator emission pattern preserves the scanner's
output invariants for every non-word, non-`EndOfLine` operator kind. -/
theorem spec_prepend_op (buff : List Char) (k : Kind) (ts : List Token)
    (hk : k ≠ Kind.endOfLine ∧ k ≠ Kind.commandOrArgument)
    (h1 : ts.getLast? = some (opToken Kind.endOfLine))
    (h2 : ts.countP (fun t => decide (t.kind = Kind.endOfLine)) = 1)
    (h3 : ∀ t ∈ ts, t.kind = Kind.commandOrArgument → t.value ≠ "") :
    (flushBuff buff ++ ([opToken k] ++ ts)).getLast? = some (opToken Kind.endOfLine) ∧
    (flushBuff buff ++ ([opToken k] ++ ts)).countP
      (fun t => decide (t.kind = Kind.endOfLine)) = 1 ∧
    ∀ t ∈ flushBuff buff ++ ([opToken k] ++ ts),
      t.kind = Kind.commandOrArgument → t.value ≠ "" := by
  have hop : ∀ t ∈ [opToken k],
      t.kind ≠ Kind.endOfLine ∧ (t.kind = Kind.commandOrArgument → t.value ≠ "") := by
    intro t ht
    simp only [List.mem_singleton] at ht
    subst ht
    exact ⟨hk.1, fun hco => absurd hco hk.2⟩
  obtain ⟨g1, g2, g3⟩ := spec_prepend [opToken k] ts hop h1 h2 h3
  exact spec_prepend _ _ (goodPre_flush buff) g1 g2 g3

/-- The scanner invariants hold for `lexRun` from every state. -/
theorem lexRun_wellFormed (cs buff : List Char) :
    (lexRun cs buff).getLast? = some (opToken Kind.endOfLine) ∧
    (lexRun cs buff).countP (fun t => decide (t.kind = Kind.endOfLine)) = 1 ∧
    ∀ t ∈ lexRun cs buff, t.kind = Kind.commandOrArgument → t.value ≠ "" := by
  induction cs, buff using lexRun.induct with
  | case1 buff =>
    rw [lexRun_nil]
    exact spec_prepend _ _ (goodPre_flush buff) (by decide) (by decide) (by decide)
  | case2 c rest buff hc ih =>
    rw [lexRun_space c rest buff hc]
    exact spec_prepend _ _ (goodPre_flush buff) ih.1 ih.2.1 ih.2.2
  | case3 rest buff h1 ih =>
    rw [lexRun_pipe]
    exact spec_prepend_op buff Kind.pipe _ (by decide) ih.1 ih.2.1 ih.2.2
  | case4 rest buff h1 h2 ih =>
    rw [lexRun_openBrace]
    exact spec_prepend_op buff Kind.openBrace _ (by decide) ih.1 ih.2.1 ih.2.2
  | case5 rest buff h1 h2 h3 ih =>
    rw [lexRun_closeBrace]
    exact spec_prepend_op buff Kind.closeBrace _ (by decide) ih.1 ih.2.1 ih.2.2
  | case6 rest buff h1 h2 h3 h4 ih =>
    rw [lexRun_semicolon]
    exact spec_prepend_op buff Kind.semicolon _ (by decide) ih.1 ih.2.1 ih.2.2
  | case7 rest buff h1 h2 h3 h4 h5 ih =>
    rw [lexRun_ampersand]
    exact spec_prepend_op buff Kind.ampersand _ (by decide) ih.1 ih.2.1 ih.2.2
  | case8 rest buff h1 h2 h3 h4 h5 h6 ih =>
    rw [lexRun_minor]
    exact spec_prepend_op buff Kind.minor _ (by decide) ih.1 ih.2.1 ih.2.2
  | case9 buff rest2 h1 h2 h3 h4 h5 h6 h7 ih =>
    rw [lexRun_majorMajor]
    exact spec_prepend_op buff Kind.majorMajor _ (by decide) ih.1 ih.2.1 ih.2.2
  | case10 buff c2 rest2 hc2 h1 h2 h3 h4 h5 h6 h7 ih =>
    rw [lexRun_major c2 rest2 buff hc2]
    exact spec_prepend_op buff Kind.major _ (by decide) ih.1 ih.2.1 ih.2.2
  | case11 buff h1 h2 h3 h4 h5 h6 h7 =>
    rw [lexRun_major_eol]
    exact spec_prepend_op buff Kind.major _ (by decide) (by decide) (by decide) (by decide)
  | case12 c rest buff h1 h2 h3 h4 h5 h6 h7 h8 ih =>
    rw [lexRun_word c rest buff h1 h2 h3 h4 h5 h6 h7 h8]
    exact ih

/-! ## Serializer and tree-predicate lemmas -/

/-- `ccPipesNonempty` in terms of the pipeline list. -/
theorem ccPipesNonempty_pipelines (cc : CompleteCommand) :
    ccPipesNonempty cc = psPipesNonempty cc.pipelines := by
  cases cc; rfl

/-- `serializeCompleteCommand` in terms of the pipeline list. -/
theorem serializeCompleteCommand_pipelines (cc : CompleteCommand) :
    serializeCompleteCommand cc = serializePipelines cc.pipelines := by
  cases cc; rfl

/-- The pipeline invariant does not depend on the sync flag. -/
theorem PipelineInv_resync {p : Pipeline} (b : Bool) (h : PipelineInv p) :
    PipelineInv (Pipeline.mk p.commands b) := by
  cases p
  exact h

/-- A pipeline satisfying the invariant serializes its command list. -/
theorem PipelineInv_serializeCommands {p : Pipeline} (h : PipelineInv p) :
    ∃ s, serializeCommands p.commands = Except.ok s := by
  obtain ⟨h1, _, s, hs⟩ := h
  cases p with
  | mk cs b =>
    rw [serializePipeline] at hs
    simp only [plPipesNonempty, Bool.and_eq_true, Bool.not_eq_true'] at h1
    rw [if_neg (by simp [List.isEmpty_iff] at h1; simp [h1.1])] at hs
    exact ⟨s, hs⟩

/-- Serializing a command list succeeds when its parts do. -/
theorem serializeCommands_cons_ok {c : Command} {cs : List Command} {s1 s2 : String}
    (h1 : serializeCommand c = Except.ok s1) (h2 : serializeCommands cs = Except.ok s2) :
    ∃ s, serializeCommands (c :: cs) = Except.ok s := by
  cases cs with
  | nil => exact ⟨s1, by rw [serializeCommands]; exact h1⟩
  | cons d ds =>
    refine ⟨s1 ++ "|" ++ s2, ?_⟩
    rw [show serializeCommands (c :: d :: ds) = do
        let s ← serializeCommand c
        let t ← serializeCommands (d :: ds)
        Except.ok (s ++ "|" ++ t) from by rw [serializeCommands]; simp]
    rw [h1, h2]
    rfl

/-- Serializing a pipeline list succeeds when its parts do. -/
theorem serializePipelines_cons_ok {p : Pipeline} {ps : List Pipeline} {s1 s2 : String}
    (h1 : serializePipeline p = Except.ok s1) (h2 : serializePipelines ps = Except.ok s2) :
    ∃ s, serializePipelines (p :: ps) = Except.ok s := by
  cases ps with
  | nil => exact ⟨s1, by rw [serializePipelines]; exact h1⟩
  | cons q qs =>
    refine ⟨s1 ++ ";" ++ s2, ?_⟩
    rw [show serializePipelines (p :: q :: qs) = do
        let s ← serializePipeline p
        let t ← serializePipelines (q :: qs)
        Except.ok (s ++ ";" ++ t) from by rw [serializePipelines]; simp]
    rw [h1, h2]
    rfl

/-- `Parser::parse_simple_command` always returns a `SimpleCommand`. -/
theorem parseSimpleCommand_shape {toks : List Token} {c : Command} {rest : List Token}
    (h : parseSimpleCommand toks = Except.ok (c, rest)) :
    ∃ sc, c = Command.simpleCommand sc := by
  rw [parseSimpleCommand] at h
  simp only [bind, Except.bind] at h
  split at h
  · exact Except.noConfusion h
  · split at h
    · exact Except.noConfusion h
    · rename_i v hv w hw
      exact ⟨_, (Prod.mk.injEq .. ▸ Except.ok.inj h).1.symm⟩

/-- Simple commands always satisfy the command invariant. -/
theorem CmdInv_simple (sc : SimpleCommand) : CmdInv (Command.simpleCommand sc) :=
  ⟨rfl, _, rfl⟩

/-- A subshell over an invariant-satisfying tree satisfies the command
invariant. -/
theorem CmdInv_subshell {cc : CompleteCommand} (rl : RedirectList) (h : CCInv cc) :
    CmdInv (Command.subshell (Subshell.mk cc rl)) := by
  obtain ⟨h1, -, s, hs⟩ := h
  refine ⟨?_, ?_⟩
  · simpa [cPipesNonempty] using h1
  · refine ⟨"(" ++ s ++ ")" ++ serializeRedirs rl, ?_⟩
    rw [serializeCommand, hs]
    rfl

/-- A one-command pipeline built from an invariant-satisfying command
satisfies the pipeline invariant. -/
theorem PipelineInv_single (c : Command) (b : Bool) (hc : CmdInv c) :
    PipelineInv (Pipeline.mk [c] b) := by
  obtain ⟨h1, s, hs⟩ := hc
  refine ⟨?_, ?_, ?_⟩
  · simp [plPipesNonempty, csPipesNonempty, h1]
  · intro q hq
    simp only [Pipeline.commands, List.mem_singleton] at hq
    subst hq
    exact ⟨h1, s, hs⟩
  · refine ⟨s, ?_⟩
    rw [serializePipeline]
    simp only [List.length_singleton]
    rw [if_neg (by omega)]
    rw [serializeCommands]
    exact hs

/-- Consing an invariant-satisfying command onto an invariant-satisfying
pipeline preserves the pipeline invariant (for any sync flag). -/
theorem PipelineInv_cons {c : Command} {p : Pipeline} (b : Bool)
    (hc : CmdInv c) (hp : PipelineInv p) :
    PipelineInv (Pipeline.mk (c :: p.commands) b) := by
  obtain ⟨hc1, s1, hs1⟩ := hc
  obtain ⟨hp1, hmem, hser⟩ := hp
  obtain ⟨s2, hs2⟩ := PipelineInv_serializeCommands ⟨hp1, hmem, hser⟩
  have hcsn : csPipesNonempty p.commands = true := by
    cases p with
    | mk cs b' =>
      simp only [plPipesNonempty, Bool.and_eq_true] at hp1
      exact hp1.2
  refine ⟨?_, ?_, ?_⟩
  · simp [plPipesNonempty, csPipesNonempty, hc1, hcsn]
  · intro q hq
    simp only [Pipeline.commands] at hq
    rcases List.mem_cons.mp hq with hq | hq
    · subst hq; exact ⟨hc1, s1, hs1⟩
    · exact hmem q hq
  · obtain ⟨s, hs⟩ := serializeCommands_cons_ok hs1 hs2
    refine ⟨s, ?_⟩
    rw [serializePipeline]
    rw [if_neg (by simp)]
    exact hs

/-- A one-pipeline complete command satisfies the invariant. -/
theorem CCInv_single {p : Pipeline} (b : Bool) (hp : PipelineInv p) :
    CCInv (CompleteCommand.mk [Pipeline.mk p.commands b]) := by
  have hp' := PipelineInv_resync b hp
  obtain ⟨h1, -, s, hs⟩ := hp'
  refine ⟨?_, ?_, ?_⟩
  · simp [ccPipesNonempty, psPipesNonempty, h1]
  · intro q hq
    simp only [CompleteCommand.pipelines, List.mem_singleton] at hq
    subst hq
    exact PipelineInv_resync b hp
  · refine ⟨s, ?_⟩
    rw [serializeCompleteCommand]
    rw [serializePipelines]
    exact hs

/-- Consing an invariant-satisfying pipeline onto an invariant-satisfying
complete command preserves the invariant. -/
theorem CCInv_cons {p : Pipeline} {cc : CompleteCommand} (b : Bool)
    (hp : PipelineInv p) (hcc : CCInv cc) :
    CCInv (CompleteCommand.mk (Pipeline.mk p.commands b :: cc.pipelines)) := by
  have hp' := PipelineInv_resync b hp
  obtain ⟨h1, hmem, s2, hs2⟩ := hcc
  obtain ⟨g1, -, s1, hs1⟩ := hp'
  refine ⟨?_, ?_, ?_⟩
  · have hps : psPipesNonempty cc.pipelines = true := by
      rw [← ccPipesNonempty_pipelines]; exact h1
    simp [ccPipesNonempty, psPipesNonempty, g1, hps]
  · intro q hq
    simp only [CompleteCommand.pipelines] at hq
    rcases List.mem_cons.mp hq with hq | hq
    · subst hq; exact PipelineInv_resync b hp
    · exact hmem q hq
  · rw [serializeCompleteCommand_pipelines cc] at hs2
    obtain ⟨s, hs⟩ := serializePipelines_cons_ok hs1 hs2
    exact ⟨s, by rw [serializeCompleteCommand]; exact hs⟩

/-- The parser's structural invariant: whatever any of the four
mutually-recursive parsing functions returns satisfies the corresponding
invariant — recursively non-empty pipelines and a serializable tree —
at every fuel value. -/
theorem parserInvAux : ∀ f : Nat,
    (∀ toks cc rest, parseCompleteCommandF f toks = Except.ok (cc, rest) → CCInv cc) ∧
    (∀ toks p rest, parsePipelineF f toks = Except.ok (p, rest) → PipelineInv p) ∧
    (∀ toks c rest, parseCommandF f toks = Except.ok (c, rest) → CmdInv c) ∧
    (∀ toks c rest, parseSubshellF f toks = Except.ok (c, rest) → CmdInv c) := by
  intro f
  induction f with
  | zero =>
    refine ⟨?_, ?_, ?_, ?_⟩ <;> intro toks x rest h <;>
      simp [parseCompleteCommandF, parsePipelineF, parseCommandF, parseSubshellF] at h
  | succ f ih =>
    obtain ⟨ihCC, ihPl, ihCmd, ihSub⟩ := ih
    refine ⟨?_, ?_, ?_, ?_⟩
    · -- parse_complete_command
      intro toks cc rest h
      rw [parseCompleteCommandF] at h
      simp only [bind, Except.bind] at h
      split at h
      · exact Except.noConfusion h
      rename_i v hp
      have hpl := ihPl toks v.1 v.2 (by rw [hp])
      split at h
      · exact Except.noConfusion h
      rename_i w hr
      split at h
      · -- semicolon
        split at h
        · exact Except.noConfusion h
        rename_i u hcc
        have hinv := ihCC w.2 u.1 u.2 (by rw [hcc])
        have heq := (Prod.mk.injEq .. ▸ Except.ok.inj h).1
        rw [← heq]
        exact CCInv_cons true hpl hinv
      · -- ampersand
        split at h
        · exact Except.noConfusion h
        rename_i u hcc
        have hinv := ihCC w.2 u.1 u.2 (by rw [hcc])
        have heq := (Prod.mk.injEq .. ▸ Except.ok.inj h).1
        rw [← heq]
        exact CCInv_cons false hpl hinv
      · -- endOfLine
        have heq := (Prod.mk.injEq .. ▸ Except.ok.inj h).1
        rw [← heq]
        exact CCInv_single true hpl
      · -- closeBrace
        have heq := (Prod.mk.injEq .. ▸ Except.ok.inj h).1
        rw [← heq]
        exact CCInv_single true hpl
      · exact Except.noConfusion h
    · -- parse_pipeline
      intro toks p rest h
      rw [parsePipelineF] at h
      simp only [bind, Except.bind] at h
      split at h
      · exact Except.noConfusion h
      rename_i v hc
      have hcmd := ihCmd toks v.1 v.2 (by rw [hc])
      split at h
      · exact Except.noConfusion h
      rename_i w hr
      split at h
      · -- pipe
        split at h
        · exact Except.noConfusion h
        rename_i u hp2
        have hinv := ihPl w.2 u.1 u.2 (by rw [hp2])
        have heq := (Prod.mk.injEq .. ▸ Except.ok.inj h).1
        rw [← heq]
        exact PipelineInv_cons u.1.sync hcmd hinv
      · -- other token: single-command pipeline
        have heq := (Prod.mk.injEq .. ▸ Except.ok.inj h).1
        rw [← heq]
        exact PipelineInv_single v.1 false hcmd
    · -- parse_command
      intro toks c rest h
      rw [parseCommandF] at h
      simp only [bind, Except.bind] at h
      split at h
      · exact Except.noConfusion h
      rename_i w hr
      split at h
      · -- open brace: subshell
        exact ihSub w.2 c rest h
      · -- simple command
        obtain ⟨sc, hsc⟩ := parseSimpleCommand_shape h
        subst hsc
        exact CmdInv_simple sc
    · -- parse_subshell
      intro toks c rest h
      rw [parseSubshellF] at h
      simp only [bind, Except.bind] at h
      split at h
      · exact Except.noConfusion h
      rename_i u hcc
      have hinv := ihCC toks u.1 u.2 (by rw [hcc])
      split at h
      · exact Except.noConfusion h
      rename_i w hr
      split at h
      · -- close brace
        split at h
        · exact Except.noConfusion h
        rename_i v hrl
        have heq := (Prod.mk.injEq .. ▸ Except.ok.inj h).1
        rw [← heq]
        exact CmdInv_subshell v.1 hinv
      · exact Except.noConfusion h

/-! ## Terminator/sync lemmas -/

/-- The real complete-command parser agrees with its instrumented
variant: forgetting the recorded terminator kinds gives exactly the
parser's result. -/
theorem parseCompleteCommandF_toTerms : ∀ f toks,
    parseCompleteCommandF f toks =
      Except.map (fun pr => (CompleteCommand.mk (pr.1.map Prod.fst), pr.2))
        (parseCompleteCommandT f toks) := by
  intro f
  induction f with
  | zero => intro toks; rfl
  | succ f ih =>
    intro toks
    rw [parseCompleteCommandF, parseCompleteCommandT]
    simp only [bind, Except.bind]
    cases hp : parsePipelineF f toks with
    | error e => rfl
    | ok v =>
      dsimp only
      cases hr : readToken v.2 with
      | error e => rfl
      | ok w =>
        dsimp only
        cases hk : w.1.kind
        case semicolon =>
          rw [ih w.2]
          cases hc : parseCompleteCommandT f w.2 with
          | error e => rfl
          | ok u => rfl
        case ampersand =>
          rw [ih w.2]
          cases hc : parseCompleteCommandT f w.2 with
          | error e => rfl
          | ok u => rfl
        all_goals rfl

/-- Every pipeline recorded by the instrumented parser is classified by
its terminator: `;`, end-of-line and `)` give `sync = true`, `&` gives
`sync = false`. -/
theorem parseCompleteCommandT_terms : ∀ f toks ps rest,
    parseCompleteCommandT f toks = Except.ok (ps, rest) →
    ∀ pk ∈ ps,
      ((pk.2 = Kind.semicolon ∨ pk.2 = Kind.endOfLine ∨ pk.2 = Kind.closeBrace) ∧
        pk.1.sync = true) ∨
      (pk.2 = Kind.ampersand ∧ pk.1.sync = false) := by
  intro f
  induction f with
  | zero => intro toks ps rest h; simp [parseCompleteCommandT] at h
  | succ f ih =>
    intro toks ps rest h
    rw [parseCompleteCommandT] at h
    simp only [bind, Except.bind] at h
    split at h
    · exact Except.noConfusion h
    rename_i v hp
    split at h
    · exact Except.noConfusion h
    rename_i w hr
    split at h
    · -- semicolon
      rename_i hk
      split at h
      · exact Except.noConfusion h
      rename_i u hc
      have heq := (Prod.mk.injEq .. ▸ Except.ok.inj h).1
      rw [← heq]
      intro pk hpk
      rcases List.mem_cons.mp hpk with hpk | hpk
      · subst hpk; left; exact ⟨Or.inl hk, rfl⟩
      · exact ih w.2 u.1 u.2 (by rw [hc]) pk hpk
    · -- ampersand
      rename_i hk
      split at h
      · exact Except.noConfusion h
      rename_i u hc
      have heq := (Prod.mk.injEq .. ▸ Except.ok.inj h).1
      rw [← heq]
      intro pk hpk
      rcases List.mem_cons.mp hpk with hpk | hpk
      · subst hpk; right; exact ⟨hk, rfl⟩
      · exact ih w.2 u.1 u.2 (by rw [hc]) pk hpk
    · -- endOfLine
      rename_i hk
      have heq := (Prod.mk.injEq .. ▸ Except.ok.inj h).1
      rw [← heq]
      intro pk hpk
      simp only [List.mem_singleton] at hpk
      subst hpk
      left; exact ⟨Or.inr (Or.inl hk), rfl⟩
    · -- closeBrace
      rename_i hk
      have heq := (Prod.mk.injEq .. ▸ Except.ok.inj h).1
      rw [← heq]
      intro pk hpk
      simp only [List.mem_singleton] at hpk
      subst hpk
      left; exact ⟨Or.inr (Or.inr hk), rfl⟩
    · exact Except.noConfusion h

/-- The translator propagates the pipeline's sync flag unchanged into
the emitted `SingleCommand` or `PipelinedCommands`. -/
theorem translator_pipeline_sync (tr : Translator) (p : Pipeline)
    (csc : CompoundSerialCommand)
    (h : tr.pipelineT p = Except.ok csc) : csc.syncFlag = p.sync := by
  rw [Translator.pipelineT] at h
  simp only [bind, Except.bind] at h
  split at h
  · exact Except.noConfusion h
  rename_i inter hi
  split at h
  · exact Except.noConfusion h
  · -- single command
    rename_i f
    rw [Translator.single_commandT] at h
    split at h
    · exact Except.noConfusion h
    split at h
    · exact Except.noConfusion h
    have hs := Except.ok.inj h
    rw [← hs]
    rfl
  · -- pipelined commands
    rename_i f g rest2
    rw [Translator.pipelined_commandsT] at h
    simp only [bind, Except.bind] at h
    split at h
    · exact Except.noConfusion h
    rename_i src hsrc
    split at h
    · exact Except.noConfusion h
    rename_i fl hfl
    split at h
    · exact Except.noConfusion h
    rename_i sk hsk
    have hs := Except.ok.inj h
    rw [← hs]
    rfl

/-! ## Interpreter event-trace lemmas -/

theorem commonExecutor_ok_events {env : IEnv} {a : String} {args : List String}
    {i o : Option StdioTag} {st : ISt} {c : Nat} {st' : ISt}
    (h : commonExecutor env a args i o st = (Except.ok c, st')) :
    st'.events = st.events ++ [Event.spawned c a args] := by
  rw [commonExecutor] at h
  split at h
  · cases h; rfl
  · cases h

theorem commonExecutor_error_events {env : IEnv} {a : String} {args : List String}
    {i o : Option StdioTag} {st : ISt} {e : Err} {st' : ISt}
    (h : commonExecutor env a args i o st = (Except.error e, st')) :
    st'.events = st.events := by
  rw [commonExecutor] at h
  split at h
  · cases h
  · cases h; rfl

theorem maybeRedirectInput_spawned {env : IEnv} {inp : Option InputRedir} {st : ISt}
    {r : Except Err (Option StdioTag)} {st' : ISt}
    (h : maybeRedirectInput env inp st = (r, st')) (id : Nat) :
    spawnedIn st'.events id ↔ spawnedIn st.events id := by
  rcases inp with - | i
  · rw [maybeRedirectInput] at h; cases h; rfl
  · rw [maybeRedirectInput] at h
    split at h
    · cases h; simp [spawnedIn]
    · cases h; rfl

theorem maybeRedirectOutput_spawned {env : IEnv} {out : Option OutputRedir} {st : ISt}
    {r : Except Err (Option StdioTag)} {st' : ISt}
    (h : maybeRedirectOutput env out st = (r, st')) (id : Nat) :
    spawnedIn st'.events id ↔ spawnedIn st.events id := by
  rcases out with - | o
  · rw [maybeRedirectOutput] at h; cases h; rfl
  · rw [maybeRedirectOutput] at h
    split at h
    · cases h; simp [spawnedIn]
    · cases h; rfl

theorem wrapOsPipe_events {env : IEnv} {st : ISt} {r : Except Err (Nat × Nat)} {st' : ISt}
    (h : wrapOsPipe env st = (r, st')) : st'.events = st.events := by
  rw [wrapOsPipe] at h
  split at h
  · cases h; rfl
  · cases h; rfl



theorem sourceCommand_ok_spawned {env : IEnv} {sc : SourceCommand} {st : ISt}
    {child rx : Nat} {st' : ISt}
    (h : sourceCommand env sc st = (Except.ok (child, rx), st')) (id : Nat) :
    spawnedIn st'.events id → spawnedIn st.events id ∨ id = child := by
  rw [sourceCommand] at h
  split at h
  · cases h
  rename_i argv0 args harg
  split at h
  · cases h
  rename_i rin st1 hin
  split at h
  · cases h
  rename_i pr st2 hpipe
  split at h
  · cases h
  rename_i c st3 hexec
  cases h
  intro hsp
  rw [commonExecutor_ok_events hexec] at hsp
  obtain ⟨a, b, hab⟩ := hsp
  rcases List.mem_append.mp hab with hab | hab
  · left
    rw [← maybeRedirectInput_spawned hin id, ← wrapOsPipe_events hpipe]
    exact ⟨a, b, hab⟩
  · right
    simp only [List.mem_singleton] at hab
    cases hab
    rfl

theorem sourceCommand_error_spawned {env : IEnv} {sc : SourceCommand} {st : ISt}
    {e : Err} {st' : ISt}
    (h : sourceCommand env sc st = (Except.error e, st')) (id : Nat) :
    spawnedIn st'.events id → spawnedIn st.events id := by
  rw [sourceCommand] at h
  split at h
  · cases h; exact fun hx => hx
  rename_i argv0 args harg
  split at h
  · rename_i e1 st1 hin
    cases h
    exact (maybeRedirectInput_spawned hin id).mp
  rename_i rin st1 hin
  split at h
  · rename_i e1 st2 hpipe
    cases h
    intro hx
    rw [← maybeRedirectInput_spawned hin id, ← wrapOsPipe_events hpipe]
    exact hx
  rename_i pr st2 hpipe
  split at h
  · rename_i e1 st3 hexec
    cases h
    intro hx
    rw [← maybeRedirectInput_spawned hin id, ← wrapOsPipe_events hpipe,
      ← commonExecutor_error_events hexec]
    exact hx
  · cases h

theorem filterCommand_ok_spawned {env : IEnv} {fc : FilterCommand} {rx : Nat} {st : ISt}
    {child rx' : Nat} {st' : ISt}
    (h : filterCommand env fc rx st = (Except.ok (child, rx'), st')) (id : Nat) :
    spawnedIn st'.events id → spawnedIn st.events id ∨ id = child := by
  rw [filterCommand] at h
  split at h
  · cases h
  rename_i argv0 args harg
  split at h
  · cases h
  rename_i pr st2 hpipe
  split at h
  · cases h
  rename_i c st3 hexec
  cases h
  intro hsp
  rw [commonExecutor_ok_events hexec] at hsp
  obtain ⟨a, b, hab⟩ := hsp
  rcases List.mem_append.mp hab with hab | hab
  · left
    rw [← wrapOsPipe_events hpipe]
    exact ⟨a, b, hab⟩
  · right
    simp only [List.mem_singleton] at hab
    cases hab
    rfl

theorem filterCommand_error_spawned {env : IEnv} {fc : FilterCommand} {rx : Nat} {st : ISt}
    {e : Err} {st' : ISt}
    (h : filterCommand env fc rx st = (Except.error e, st')) (id : Nat) :
    spawnedIn st'.events id → spawnedIn st.events id := by
  rw [filterCommand] at h
  split at h
  · cases h; exact fun hx => hx
  rename_i argv0 args harg
  split at h
  · rename_i e1 st2 hpipe
    cases h
    intro hx
    rw [← wrapOsPipe_events hpipe]
    exact hx
  rename_i pr st2 hpipe
  split at h
  · rename_i e1 st3 hexec
    cases h
    intro hx
    rw [← wrapOsPipe_events hpipe, ← commonExecutor_error_events hexec]
    exact hx
  · cases h

theorem sinkCommand_error_spawned {env : IEnv} {sc : SinkCommand} {rx : Nat} {st : ISt}
    {e : Err} {st' : ISt}
    (h : sinkCommand env sc rx st = (Except.error e, st')) (id : Nat) :
    spawnedIn st'.events id → spawnedIn st.events id := by
  rw [sinkCommand] at h
  split at h
  · cases h; exact fun hx => hx
  rename_i argv0 args harg
  split at h
  · rename_i e1 st1 hout
    cases h
    exact (maybeRedirectOutput_spawned hout id).mp
  rename_i rou st1 hout
  cases hexec : commonExecutor env argv0 args (some (StdioTag.pipeEnd rx)) rou st1 with
  | mk r st2 =>
    rw [hexec] at h
    cases r with
    | ok c => cases h
    | error e1 =>
      cases h
      intro hx
      rw [← maybeRedirectOutput_spawned hout id, ← commonExecutor_error_events hexec]
      exact hx

theorem killChildren_events (children : List Nat) (st : ISt) :
    (killChildren children st).events =
      st.events ++ children.map Event.killed ++ children.reverse.map Event.waited := rfl

theorem killChildren_covers {children : List Nat} (st : ISt) {id : Nat}
    (hid : id ∈ children) :
    Event.killed id ∈ (killChildren children st).events ∧
    Event.waited id ∈ (killChildren children st).events := by
  rw [killChildren_events]
  constructor
  · exact List.mem_append.mpr (Or.inl (List.mem_append.mpr (Or.inr
      (List.mem_map.mpr ⟨id, hid, rfl⟩))))
  · exact List.mem_append.mpr (Or.inr
      (List.mem_map.mpr ⟨id, List.mem_reverse.mpr hid, rfl⟩))

theorem killChildren_spawned (children : List Nat) (st : ISt) (id : Nat) :
    spawnedIn (killChildren children st).events id ↔ spawnedIn st.events id := by
  rw [killChildren_events]
  constructor
  · rintro ⟨a, b, hab⟩
    rcases List.mem_append.mp hab with hab | hab
    · rcases List.mem_append.mp hab with hab | hab
      · exact ⟨a, b, hab⟩
      · obtain ⟨x, -, hx⟩ := List.mem_map.mp hab
        cases hx
    · obtain ⟨x, -, hx⟩ := List.mem_map.mp hab
      cases hx
  · rintro ⟨a, b, hab⟩
    exact ⟨a, b, List.mem_append.mpr (Or.inl (List.mem_append.mpr (Or.inl hab)))⟩



theorem filtersLoop_ok_spawned {env : IEnv} : ∀ (fs : List FilterCommand)
    (children : List Nat) (rx : Nat) (st : ISt) (children' : List Nat) (rx' : Nat)
    (st' : ISt),
    filtersLoop env fs children rx st = (Except.ok (children', rx'), st') →
    (∀ id, spawnedIn st.events id → id ∈ children) →
    ∀ id, spawnedIn st'.events id → id ∈ children' := by
  intro fs
  induction fs with
  | nil =>
    intro children rx st children' rx' st' h hpre
    rw [filtersLoop] at h
    cases h
    exact hpre
  | cons f rest ih =>
    intro children rx st children' rx' st' h hpre
    rw [filtersLoop] at h
    split at h
    · cases h
    rename_i child rx1 st1 hfc
    refine ih (children ++ [child]) rx1 st1 children' rx' st' ?_ ?_
    · exact h
    · intro id hsp
      rcases filterCommand_ok_spawned (by rw [hfc]) id hsp with hx | hx
      · exact List.mem_append.mpr (Or.inl (hpre id hx))
      · exact List.mem_append.mpr (Or.inr (by simp [hx]))

theorem filtersLoop_error_killed {env : IEnv} : ∀ (fs : List FilterCommand)
    (children : List Nat) (rx : Nat) (st : ISt) (e : Err) (st' : ISt),
    filtersLoop env fs children rx st = (Except.error e, st') →
    (∀ id, spawnedIn st.events id → id ∈ children) →
    ∀ id, spawnedIn st'.events id →
      Event.killed id ∈ st'.events ∧ Event.waited id ∈ st'.events := by
  intro fs
  induction fs with
  | nil =>
    intro children rx st e st' h hpre
    rw [filtersLoop] at h
    cases h
  | cons f rest ih =>
    intro children rx st e st' h hpre
    rw [filtersLoop] at h
    split at h
    · -- filter spawn failed: kill_children
      rename_i e1 st1 hfc
      cases h
      intro id hsp
      have hx := (killChildren_spawned children st1 id).mp hsp
      have hid := hpre id (filterCommand_error_spawned (by rw [hfc]) id hx)
      exact killChildren_covers st1 hid
    · rename_i child rx1 st1 hfc
      refine ih (children ++ [child]) rx1 st1 e st' h ?_
      intro id hsp
      rcases filterCommand_ok_spawned (by rw [hfc]) id hsp with hx | hx
      · exact List.mem_append.mpr (Or.inl (hpre id hx))
      · exact List.mem_append.mpr (Or.inr (by simp [hx]))

/-! ## Translator characterization lemmas -/

theorem serializeCommand_subshell_inner_ok {cc : CompleteCommand} {rl : RedirectList}
    {s : String}
    (h : serializeCommand (Command.subshell (Subshell.mk cc rl)) = Except.ok s) :
    ∃ t, serializeCompleteCommand cc = Except.ok t := by
  rw [serializeCommand] at h
  cases hc : serializeCompleteCommand cc with
  | error e => rw [hc] at h; exact Except.noConfusion h
  | ok t => exact ⟨t, rfl⟩

theorem commandT_redirs (tr : Translator) {c : Command} (hc : CmdInv c) :
    ∃ scmd, tr.commandT c = Except.ok scmd ∧ scmd.redirs = cmdRedirs c := by
  cases c with
  | simpleCommand sc => exact ⟨sc, rfl, rfl⟩
  | subshell ss =>
    cases ss with
    | mk cc rl =>
      obtain ⟨-, s, hs⟩ := hc
      obtain ⟨t, ht⟩ := serializeCommand_subshell_inner_ok hs
      refine ⟨{ arguments := [tr.exe] ++ (if tr.verbose then ["-x"] else []) ++ ["-c", t]
                redirs := rl }, ?_, rfl⟩
      rw [Translator.commandT, Translator.subshellT]
      simp only [Subshell.complete_command, ht]
      rfl

theorem commandsT_redirs (tr : Translator) : ∀ (cmds : List Command),
    (∀ c ∈ cmds, CmdInv c) →
    ∃ inter, tr.commandsT cmds = Except.ok inter ∧
      inter.map SimpleCommand.redirs = cmds.map cmdRedirs := by
  intro cmds
  induction cmds with
  | nil => intro _; exact ⟨[], rfl, rfl⟩
  | cons c rest ih =>
    intro hinv
    obtain ⟨scmd, hs, hr⟩ := commandT_redirs tr (hinv c (List.mem_cons_self c rest))
    obtain ⟨inter, hi, hm⟩ := ih (fun d hd => hinv d (List.mem_cons_of_mem c hd))
    refine ⟨scmd :: inter, ?_, ?_⟩
    · rw [Translator.commandsT]
      rw [hs, hi]
      rfl
    · simp [hr, hm]

theorem new_source_spec (x : SimpleCommand) (rest : List SimpleCommand) :
    (x.redirs.input.length > 1 ∧
      Translator.new_source (x :: rest) =
        Except.error ⟨"more than one input redirection"⟩) ∨
    (¬x.redirs.input.length > 1 ∧ x.redirs.output.length > 0 ∧
      Translator.new_source (x :: rest) =
        Except.error ⟨"output redirection for pipeline source"⟩) ∨
    (¬x.redirs.input.length > 1 ∧ x.redirs.output.length = 0 ∧
      Translator.new_source (x :: rest) =
        Except.ok ({ arguments := x.arguments, input := x.redirs.input.head? }, rest)) := by
  by_cases h1 : x.redirs.input.length > 1
  · left
    exact ⟨h1, by rw [Translator.new_source]; rw [if_pos h1]⟩
  by_cases h2 : x.redirs.output.length > 0
  · right; left
    exact ⟨h1, h2, by rw [Translator.new_source]; rw [if_neg h1, if_pos h2]⟩
  · right; right
    exact ⟨h1, by omega, by rw [Translator.new_source]; rw [if_neg h1, if_neg h2]⟩

theorem new_sink_spec (x : SimpleCommand) (rest : List SimpleCommand) :
    (x.redirs.input.length > 0 ∧
      Translator.new_sink (x :: rest) =
        Except.error ⟨"input redirection for pipeline sink"⟩) ∨
    (¬x.redirs.input.length > 0 ∧ x.redirs.output.length > 1 ∧
      Translator.new_sink (x :: rest) =
        Except.error ⟨"more than one output redirection"⟩) ∨
    (¬x.redirs.input.length > 0 ∧ ¬x.redirs.output.length > 1 ∧
      Translator.new_sink (x :: rest) =
        Except.ok { arguments := x.arguments, output := x.redirs.output.head? }) := by
  by_cases h1 : x.redirs.input.length > 0
  · left
    exact ⟨h1, by rw [Translator.new_sink]; rw [if_pos h1]⟩
  by_cases h2 : x.redirs.output.length > 1
  · right; left
    exact ⟨h1, h2, by rw [Translator.new_sink]; rw [if_neg h1, if_pos h2]⟩
  · right; right
    exact ⟨h1, h2, by rw [Translator.new_sink]; rw [if_neg h1, if_neg h2]⟩



theorem single_commandT_spec (x : SimpleCommand) (sync : Bool) :
    (x.redirs.input.length > 1 ∧
      Translator.single_commandT x sync =
        Except.error ⟨"more than one input redirection"⟩) ∨
    (¬x.redirs.input.length > 1 ∧ x.redirs.output.length > 1 ∧
      Translator.single_commandT x sync =
        Except.error ⟨"more than one output redirection"⟩) ∨
    (¬x.redirs.input.length > 1 ∧ ¬x.redirs.output.length > 1 ∧
      Translator.single_commandT x sync =
        Except.ok (CompoundSerialCommand.singleCommand
          { arguments := x.arguments
            input := x.redirs.input.head?
            output := x.redirs.output.head?
            sync := sync })) := by
  by_cases h1 : x.redirs.input.length > 1
  · left
    exact ⟨h1, by rw [Translator.single_commandT]; rw [if_pos h1]⟩
  by_cases h2 : x.redirs.output.length > 1
  · right; left
    exact ⟨h1, h2, by rw [Translator.single_commandT]; rw [if_neg h1, if_pos h2]⟩
  · right; right
    exact ⟨h1, h2, by rw [Translator.single_commandT]; rw [if_neg h1, if_neg h2]⟩

theorem new_filters_spec : ∀ l : List SimpleCommand,
    ((∀ q ∈ l.dropLast, q.redirs.input.length = 0 ∧ q.redirs.output.length = 0) ∧
      ∃ fs, Translator.new_filters l = Except.ok (fs, l.drop (l.length - 1))) ∨
    (∃ e, Translator.new_filters l = Except.error e ∧
      (((∃ q ∈ l.dropLast, q.redirs.input.length > 0) ∧
        e = ⟨"input redirection for pipeline filter"⟩) ∨
       ((∃ q ∈ l.dropLast, q.redirs.output.length > 0) ∧
        e = ⟨"output redirection for pipeline filter"⟩))) := by
  intro l
  induction l with
  | nil =>
    left
    refine ⟨by simp, [], ?_⟩
    rw [show Translator.new_filters [] = Except.ok ([], []) from by
      rw [Translator.new_filters]; simp]
    rfl
  | cons x l ih =>
    cases l with
    | nil =>
      left
      refine ⟨by simp, [], ?_⟩
      rw [show Translator.new_filters [x] = Except.ok ([], [x]) from by
        rw [Translator.new_filters]; simp]
      rfl
    | cons y rest =>
      by_cases hx1 : x.redirs.input.length > 0
      · right
        refine ⟨⟨"input redirection for pipeline filter"⟩, ?_, Or.inl ⟨⟨x, ?_, hx1⟩, rfl⟩⟩
        · rw [Translator.new_filters]
          rw [if_pos hx1]
        · simp [List.dropLast_cons₂]
      by_cases hx2 : x.redirs.output.length > 0
      · right
        refine ⟨⟨"output redirection for pipeline filter"⟩, ?_, Or.inr ⟨⟨x, ?_, hx2⟩, rfl⟩⟩
        · rw [Translator.new_filters]
          rw [if_neg hx1, if_pos hx2]
        · simp [List.dropLast_cons₂]
      · rcases ih with ⟨hclean, fs, hok⟩ | ⟨e, herr, hmsg⟩
        · left
          constructor
          · intro q hq
            rw [List.dropLast_cons₂] at hq
            rcases List.mem_cons.mp hq with hq | hq
            · subst hq; omega
            · exact hclean q hq
          · refine ⟨({ arguments := x.arguments } : FilterCommand) :: fs, ?_⟩
            rw [Translator.new_filters]
            rw [if_neg hx1, if_neg hx2, hok]
            have harith : (x :: y :: rest).length - 1 = ((y :: rest).length - 1) + 1 := by
              simp
            rw [harith, List.drop_succ_cons]
            rfl
        · right
          refine ⟨e, ?_, ?_⟩
          · rw [Translator.new_filters]
            rw [if_neg hx1, if_neg hx2, herr]
            rfl
          · rcases hmsg with ⟨⟨q, hq, hql⟩, he⟩ | ⟨⟨q, hq, hql⟩, he⟩
            · exact Or.inl ⟨⟨q, by
                rw [List.dropLast_cons₂]; exact List.mem_cons_of_mem x hq, hql⟩, he⟩
            · exact Or.inr ⟨⟨q, by
                rw [List.dropLast_cons₂]; exact List.mem_cons_of_mem x hq, hql⟩, he⟩




theorem drop_pred_length {α : Type} : ∀ (l : List α) (a : α),
    ∃ z, (a :: l).drop ((a :: l).length - 1) = [z] ∧ (a :: l).getLast? = some z := by
  intro l
  induction l with
  | nil => intro a; exact ⟨a, rfl, rfl⟩
  | cons b m ih =>
    intro a
    obtain ⟨z, h1, h2⟩ := ih b
    refine ⟨z, ?_, ?_⟩
    · have harith : (a :: b :: m).length - 1 = ((b :: m).length - 1) + 1 := by simp
      rw [harith, List.drop_succ_cons, h1]
    · rw [List.getLast?_cons_cons, h2]

theorem PipelineInv_commands_ne {p : Pipeline} (h : PipelineInv p) : p.commands ≠ [] := by
  cases p with
  | mk cs b =>
    have h1 := h.1
    simp only [plPipesNonempty, Bool.and_eq_true, Bool.not_eq_true'] at h1
    simpa [Pipeline.commands, List.isEmpty_iff] using h1.1

theorem specViolationMsgR_multi (x y : SimpleCommand) (rest : List SimpleCommand)
    (z : SimpleCommand) (hz : (y :: rest).getLast? = some z) (e : Err) :
    (specViolationMsgR ((x :: y :: rest).map SimpleCommand.redirs) e ↔
      ((x.redirs.input.length > 1 ∧ e = ⟨"more than one input redirection"⟩) ∨
       (x.redirs.output.length > 0 ∧ e = ⟨"output redirection for pipeline source"⟩) ∨
       ((∃ sc ∈ (y :: rest).dropLast, sc.redirs.input.length > 0) ∧
         e = ⟨"input redirection for pipeline filter"⟩) ∨
       ((∃ sc ∈ (y :: rest).dropLast, sc.redirs.output.length > 0) ∧
         e = ⟨"output redirection for pipeline filter"⟩) ∨
       (z.redirs.input.length > 0 ∧ e = ⟨"input redirection for pipeline sink"⟩) ∨
       (z.redirs.output.length > 1 ∧ e = ⟨"more than one output redirection"⟩))) := by
  have hdrop : ∀ q, q ∈ (y.redirs :: List.map SimpleCommand.redirs rest).dropLast ↔
      ∃ sc ∈ (y :: rest).dropLast, sc.redirs = q := by
    intro q
    have hmc : y.redirs :: List.map SimpleCommand.redirs rest =
        List.map SimpleCommand.redirs (y :: rest) := rfl
    rw [hmc, ← List.map_dropLast]
    constructor
    · intro hmem
      obtain ⟨a, ha, rfl⟩ := List.mem_map.mp hmem
      exact ⟨a, ha, rfl⟩
    · rintro ⟨sc, hsc, rfl⟩
      exact List.mem_map.mpr ⟨sc, hsc, rfl⟩
  have hzmap : (y.redirs :: List.map SimpleCommand.redirs rest).getLast? = some z.redirs := by
    have hmc : y.redirs :: List.map SimpleCommand.redirs rest =
        List.map SimpleCommand.redirs (y :: rest) := rfl
    rw [hmc, List.getLast?_map, hz]
    rfl
  constructor
  · intro h
    rcases h with h | h | ⟨⟨q, hq, hql⟩, he⟩ | ⟨⟨q, hq, hql⟩, he⟩ |
      ⟨⟨q, hq, hql⟩, he⟩ | ⟨⟨q, hq, hql⟩, he⟩
    · exact Or.inl h
    · exact Or.inr (Or.inl h)
    · obtain ⟨sc, hsc, hscq⟩ := (hdrop q).mp hq
      exact Or.inr (Or.inr (Or.inl ⟨⟨sc, hsc, hscq ▸ hql⟩, he⟩))
    · obtain ⟨sc, hsc, hscq⟩ := (hdrop q).mp hq
      exact Or.inr (Or.inr (Or.inr (Or.inl ⟨⟨sc, hsc, hscq ▸ hql⟩, he⟩)))
    · rw [hzmap] at hq
      cases Option.some.inj hq
      exact Or.inr (Or.inr (Or.inr (Or.inr (Or.inl ⟨hql, he⟩))))
    · rw [hzmap] at hq
      cases Option.some.inj hq
      exact Or.inr (Or.inr (Or.inr (Or.inr (Or.inr ⟨hql, he⟩))))
  · intro h
    rcases h with h | h | ⟨⟨sc, hsc, hql⟩, he⟩ | ⟨⟨sc, hsc, hql⟩, he⟩ | ⟨hql, he⟩ | ⟨hql, he⟩
    · exact Or.inl h
    · exact Or.inr (Or.inl h)
    · exact Or.inr (Or.inr (Or.inl
        ⟨⟨sc.redirs, (hdrop _).mpr ⟨sc, hsc, rfl⟩, hql⟩, he⟩))
    · exact Or.inr (Or.inr (Or.inr (Or.inl
        ⟨⟨sc.redirs, (hdrop _).mpr ⟨sc, hsc, rfl⟩, hql⟩, he⟩)))
    · exact Or.inr (Or.inr (Or.inr (Or.inr (Or.inl ⟨⟨z.redirs, hzmap, hql⟩, he⟩))))
    · exact Or.inr (Or.inr (Or.inr (Or.inr (Or.inr ⟨⟨z.redirs, hzmap, hql⟩, he⟩))))



theorem pipelineT_characterization (tr : Translator) (p : Pipeline)
    (hne : p.commands ≠ [])
    (hinv : ∀ c ∈ p.commands, CmdInv c) :
    ((∃ e, tr.pipelineT p = Except.error e) ↔ specRedirViolation p) ∧
    (∀ e, tr.pipelineT p = Except.error e → specViolationMsg p e) := by
  obtain ⟨inter, hi, hmap⟩ := commandsT_redirs tr p.commands hinv
  cases inter with
  | nil =>
    exfalso
    apply hne
    have hl := congrArg List.length hmap
    simp only [List.length_map, List.length_nil] at hl
    exact List.length_eq_zero.mp hl.symm
  | cons x l =>
    cases l with
    | nil =>
      -- exactly one intermediate command
      have hpt2 : tr.pipelineT p = Translator.single_commandT x p.sync := by
        rw [Translator.pipelineT]
        simp only [bind, Except.bind, hi]
      have hspec : ∀ e, specViolationMsg p e ↔
          ((x.redirs.input.length > 1 ∧ e = ⟨"more than one input redirection"⟩) ∨
           (x.redirs.output.length > 1 ∧ e = ⟨"more than one output redirection"⟩)) := by
        intro e
        rw [specViolationMsg, ← hmap]
        exact Iff.rfl
      rcases single_commandT_spec x p.sync with ⟨h1, heq⟩ | ⟨h1, h2, heq⟩ | ⟨h1, h2, heq⟩
      · refine ⟨⟨fun _ => ⟨_, (hspec _).mpr (Or.inl ⟨h1, rfl⟩)⟩,
          fun _ => ⟨_, by rw [hpt2, heq]⟩⟩, ?_⟩
        intro e he
        rw [hpt2, heq] at he
        exact (hspec e).mpr (Or.inl ⟨h1, (Except.error.inj he).symm ▸ rfl⟩)
      · refine ⟨⟨fun _ => ⟨_, (hspec _).mpr (Or.inr ⟨h2, rfl⟩)⟩,
          fun _ => ⟨_, by rw [hpt2, heq]⟩⟩, ?_⟩
        intro e he
        rw [hpt2, heq] at he
        exact (hspec e).mpr (Or.inr ⟨h2, (Except.error.inj he).symm ▸ rfl⟩)
      · constructor
        · constructor
          · rintro ⟨e, he⟩
            rw [hpt2, heq] at he
            exact Except.noConfusion he
          · rintro ⟨e, hmsg⟩
            rcases (hspec e).mp hmsg with ⟨hc, -⟩ | ⟨hc, -⟩
            · omega
            · omega
        · intro e he
          rw [hpt2, heq] at he
          exact Except.noConfusion he
    | cons y rest =>
      -- two or more intermediate commands
      have hpt2 : tr.pipelineT p =
          Translator.pipelined_commandsT (x :: y :: rest) p.sync := by
        rw [Translator.pipelineT]
        simp only [bind, Except.bind, hi]
      obtain ⟨z, hz1, hz2⟩ := drop_pred_length rest y
      have hspec : ∀ e, specViolationMsg p e ↔
          ((x.redirs.input.length > 1 ∧ e = ⟨"more than one input redirection"⟩) ∨
           (x.redirs.output.length > 0 ∧ e = ⟨"output redirection for pipeline source"⟩) ∨
           ((∃ sc ∈ (y :: rest).dropLast, sc.redirs.input.length > 0) ∧
             e = ⟨"input redirection for pipeline filter"⟩) ∨
           ((∃ sc ∈ (y :: rest).dropLast, sc.redirs.output.length > 0) ∧
             e = ⟨"output redirection for pipeline filter"⟩) ∨
           (z.redirs.input.length > 0 ∧ e = ⟨"input redirection for pipeline sink"⟩) ∨
           (z.redirs.output.length > 1 ∧ e = ⟨"more than one output redirection"⟩)) := by
        intro e
        rw [specViolationMsg, ← hmap]
        exact specViolationMsgR_multi x y rest z hz2 e
      rcases new_source_spec x (y :: rest) with ⟨h1, hseq⟩ | ⟨h1, h2, hseq⟩ | ⟨h1, h2, hseq⟩
      · -- source: more than one input redirection
        have hval : tr.pipelineT p = Except.error ⟨"more than one input redirection"⟩ := by
          rw [hpt2, Translator.pipelined_commandsT]
          simp only [bind, Except.bind]
          rw [hseq]
        refine ⟨⟨fun _ => ⟨_, (hspec _).mpr (Or.inl ⟨h1, rfl⟩)⟩, fun _ => ⟨_, hval⟩⟩, ?_⟩
        intro e he
        rw [hval] at he
        exact (hspec e).mpr (Or.inl ⟨h1, (Except.error.inj he).symm ▸ rfl⟩)
      · -- source: output redirection
        have hval : tr.pipelineT p =
            Except.error ⟨"output redirection for pipeline source"⟩ := by
          rw [hpt2, Translator.pipelined_commandsT]
          simp only [bind, Except.bind]
          rw [hseq]
        refine ⟨⟨fun _ => ⟨_, (hspec _).mpr (Or.inr (Or.inl ⟨h2, rfl⟩))⟩,
          fun _ => ⟨_, hval⟩⟩, ?_⟩
        intro e he
        rw [hval] at he
        exact (hspec e).mpr (Or.inr (Or.inl ⟨h2, (Except.error.inj he).symm ▸ rfl⟩))
      · -- source clean
        rcases new_filters_spec (y :: rest) with ⟨hclean, fs, hfok⟩ | ⟨e0, herr, hmsg0⟩
        · -- filters clean
          rw [hz1] at hfok
          rcases new_sink_spec z [] with ⟨g1, hkeq⟩ | ⟨g1, g2, hkeq⟩ | ⟨g1, g2, hkeq⟩
          · -- sink: input redirection
            have hval : tr.pipelineT p =
                Except.error ⟨"input redirection for pipeline sink"⟩ := by
              rw [hpt2, Translator.pipelined_commandsT]
              simp only [bind, Except.bind]
              rw [hseq]
              dsimp only
              rw [hfok]
              dsimp only
              rw [hkeq]
            refine ⟨⟨fun _ => ⟨_, (hspec _).mpr (Or.inr (Or.inr (Or.inr (Or.inr
              (Or.inl ⟨g1, rfl⟩)))))⟩, fun _ => ⟨_, hval⟩⟩, ?_⟩
            intro e he
            rw [hval] at he
            exact (hspec e).mpr (Or.inr (Or.inr (Or.inr (Or.inr
              (Or.inl ⟨g1, (Except.error.inj he).symm ▸ rfl⟩)))))
          · -- sink: more than one output redirection
            have hval : tr.pipelineT p =
                Except.error ⟨"more than one output redirection"⟩ := by
              rw [hpt2, Translator.pipelined_commandsT]
              simp only [bind, Except.bind]
              rw [hseq]
              dsimp only
              rw [hfok]
              dsimp only
              rw [hkeq]
            refine ⟨⟨fun _ => ⟨_, (hspec _).mpr (Or.inr (Or.inr (Or.inr (Or.inr
              (Or.inr ⟨g2, rfl⟩)))))⟩, fun _ => ⟨_, hval⟩⟩, ?_⟩
            intro e he
            rw [hval] at he
            exact (hspec e).mpr (Or.inr (Or.inr (Or.inr (Or.inr
              (Or.inr ⟨g2, (Except.error.inj he).symm ▸ rfl⟩)))))
          · -- everything clean: translation succeeds
            have hval : tr.pipelineT p =
                Except.ok (CompoundSerialCommand.pipelinedCommands
                  { source := { arguments := x.arguments, input := x.redirs.input.head? }
                    filters := fs
                    sink := { arguments := z.arguments, output := z.redirs.output.head? }
                    sync := p.sync }) := by
              rw [hpt2, Translator.pipelined_commandsT]
              simp only [bind, Except.bind]
              rw [hseq]
              dsimp only
              rw [hfok]
              dsimp only
              rw [hkeq]
            constructor
            · constructor
              · rintro ⟨e, he⟩
                rw [hval] at he
                exact Except.noConfusion he
              · rintro ⟨e, hmsg⟩
                rcases (hspec e).mp hmsg with ⟨hc, -⟩ | ⟨hc, -⟩ | ⟨⟨sc, hsc, hc⟩, -⟩ |
                  ⟨⟨sc, hsc, hc⟩, -⟩ | ⟨hc, -⟩ | ⟨hc, -⟩
                · omega
                · omega
                · have := (hclean sc hsc).1; omega
                · have := (hclean sc hsc).2; omega
                · omega
                · omega
            · intro e he
              rw [hval] at he
              exact Except.noConfusion he
        · -- a filter has a redirection
          have hval : tr.pipelineT p = Except.error e0 := by
            rw [hpt2, Translator.pipelined_commandsT]
            simp only [bind, Except.bind]
            rw [hseq]
            dsimp only
            rw [herr]
          have hmsg' : specViolationMsg p e0 := by
            rcases hmsg0 with ⟨hex, he0⟩ | ⟨hex, he0⟩
            · exact (hspec e0).mpr (Or.inr (Or.inr (Or.inl ⟨hex, he0⟩)))
            · exact (hspec e0).mpr (Or.inr (Or.inr (Or.inr (Or.inl ⟨hex, he0⟩))))
          refine ⟨⟨fun _ => ⟨e0, hmsg'⟩, fun _ => ⟨e0, hval⟩⟩, ?_⟩
          intro e he
          rw [hval] at he
          exact (Except.error.inj he) ▸ hmsg'

/-!
# Theorems settling the claims
-/

/-- **C6** (confirmed).  Whenever the parser accepts, each pipeline's
sync flag is determined by its terminator token (`;`, end-of-line and `)`
give `sync = true`; `&` gives `sync = false`) — stated via the
instrumented parser, which provably agrees with the real one — and the
translator propagates each pipeline's sync flag unchanged into the
emitted `SingleCommand` or `PipelinedCommands`. -/
theorem c6_sync_classification_and_propagation :
    (∀ f toks cc rest, parseCompleteCommandF f toks = Except.ok (cc, rest) →
      ∃ ps, parseCompleteCommandT f toks = Except.ok (ps, rest) ∧
        cc.pipelines = ps.map Prod.fst ∧
        ∀ pk ∈ ps,
          ((pk.2 = Kind.semicolon ∨ pk.2 = Kind.endOfLine ∨ pk.2 = Kind.closeBrace) ∧
            pk.1.sync = true) ∨
          (pk.2 = Kind.ampersand ∧ pk.1.sync = false)) ∧
    (∀ tr p csc, Translator.pipelineT tr p = Except.ok csc →
      csc.syncFlag = p.sync) := by
  constructor
  · intro f toks cc rest h
    rw [parseCompleteCommandF_toTerms] at h
    cases hc : parseCompleteCommandT f toks with
    | error e => rw [hc] at h; exact Except.noConfusion h
    | ok u =>
      rw [hc] at h
      have h' := Prod.mk.injEq .. ▸ Except.ok.inj h
      refine ⟨u.1, ?_, h'.1.symm ▸ rfl, ?_⟩
      · rw [← h'.2]
      · exact parseCompleteCommandT_terms f toks u.1 u.2 (by rw [hc])
  · exact translator_pipeline_sync

/-- Witness for C6: parser part at the line `a&b` (first pipeline
terminated by `&`, second by end-of-line), translator part at a concrete
background pipeline. -/
theorem c6_sync_classification_and_propagation_witness :
    (∃ ps, parseCompleteCommandT 40 (scan "a&b") = Except.ok (ps, [opToken Kind.endOfLine]) ∧
      (CompleteCommand.mk [Pipeline.mk [Command.simpleCommand ⟨["a"], ⟨[], []⟩⟩] false,
        Pipeline.mk [Command.simpleCommand ⟨["b"], ⟨[], []⟩⟩] true]).pipelines =
          ps.map Prod.fst ∧
      ∀ pk ∈ ps,
        ((pk.2 = Kind.semicolon ∨ pk.2 = Kind.endOfLine ∨ pk.2 = Kind.closeBrace) ∧
          pk.1.sync = true) ∨
        (pk.2 = Kind.ampersand ∧ pk.1.sync = false)) ∧
    CompoundSerialCommand.syncFlag
      (CompoundSerialCommand.singleCommand
        { arguments := ["a"], input := none, output := none, sync := false }) =
      Pipeline.sync (Pipeline.mk [Command.simpleCommand ⟨["a"], ⟨[], []⟩⟩] false) :=
  ⟨c6_sync_classification_and_propagation.1 40 (scan "a&b") _ [opToken Kind.endOfLine]
      (by rfl),
   c6_sync_classification_and_propagation.2 ⟨false, "xv6sh"⟩
      (Pipeline.mk [Command.simpleCommand ⟨["a"], ⟨[], []⟩⟩] false) _ (by rfl)⟩

/-- **C3** (counterexample).  The claim states that every
`SimpleCommand` produced by a successful parse has at least one word.
The empty input line parses successfully to a tree containing a
`SimpleCommand` with an empty word list. -/
theorem c3_counterexample_empty_simple_command :
    parse (scan "") =
      Except.ok (CompleteCommand.mk
        [Pipeline.mk [Command.simpleCommand ⟨[], ⟨[], []⟩⟩] true]) := by
  rfl

/-- **C3** (amended).  For every token sequence on which the parser
succeeds, every `Pipeline` in the resulting tree — including pipelines
inside subshells — has at least one command; however, a `SimpleCommand`
may have zero words (for example on an empty input line). -/
theorem c3_parsed_pipelines_nonempty (toks : List Token) (cc : CompleteCommand)
    (h : parse toks = Except.ok cc) : ccPipesNonempty cc = true := by
  rw [parse, parseRun] at h
  simp only [bind, Except.bind] at h
  split at h
  · exact Except.noConfusion h
  rename_i v hp
  split at h
  · exact Except.noConfusion h
  rename_i w hr
  split at h
  · have hinv := (parserInvAux (parseFuel toks)).1 toks v.1 v.2 (by rw [hp])
    exact Except.ok.inj h ▸ hinv.1
  · exact Except.noConfusion h

/-- Witness for C3 at the parsed line `a|b`. -/
theorem c3_parsed_pipelines_nonempty_witness :
    ccPipesNonempty
      (CompleteCommand.mk [Pipeline.mk [Command.simpleCommand ⟨["a"], ⟨[], []⟩⟩,
        Command.simpleCommand ⟨["b"], ⟨[], []⟩⟩] true]) = true :=
  c3_parsed_pipelines_nonempty (scan "a|b") _ (by rfl)

/-- **C8** (confirmed).  For every input line the scanner returns
normally (`lexRun` is a total function; the Rust scanner has no failure
path): the token sequence is non-empty, its last token is `EndOfLine`,
no other `EndOfLine` occurs in it (the count of `EndOfLine` tokens is
exactly one), and every `CommandOrArgument` token carries a non-empty
word. -/
theorem c8_scanner_output_invariants (s : String) :
    scan s ≠ [] ∧
    (scan s).getLast? = some (opToken Kind.endOfLine) ∧
    (scan s).countP (fun t => decide (t.kind = Kind.endOfLine)) = 1 ∧
    ∀ t ∈ scan s, t.kind = Kind.commandOrArgument → t.value ≠ "" := by
  obtain ⟨h1, h2, h3⟩ := lexRun_wellFormed s.data []
  refine ⟨?_, h1, h2, h3⟩
  intro h
  rw [scan] at h
  rw [h] at h1
  simp at h1

/-- **C1** (code bug).  The claim states that with `overwrite=true` (the
`>` form) the target file is truncated to empty before the child writes.
`Interpreter::maybe_redirect_output` builds its open options as
`OpenOptions::new().write(true).create(true).append(!overwrite)` and never
sets `truncate`, so with `>` the file is opened in plain write mode:
writing starts at offset zero but a longer pre-existing tail survives.
Concretely, writing `hi\n` over a file holding `hello world` leaves
`hi\nlo world`, not `hi\n`.  The `>>` (append) half of the claim matches
the code. -/
theorem c1_overwrite_open_flags_lack_truncate :
    outputOpenOpts ⟨"out.txt", true⟩ =
      { write := true, create := true, append := false, truncate := false } ∧
    (outputOpenOpts ⟨"out.txt", true⟩).resultingContents
      "hello world".data "hi\n".data = "hi\nlo world".data ∧
    "hi\nlo world" ≠ "hi\n" ∧
    (outputOpenOpts ⟨"out.txt", false⟩).resultingContents
      "hello".data "hi\n".data = "hellohi\n".data :=
  ⟨rfl, by decide, by decide, by decide⟩

/-- **C2** (counterexample).  The claim states that for the input line
`echo |` the parser returns a parse error.  It does not: the parser
accepts the line, producing a pipeline whose second simple command has no
words. -/
theorem c2_counterexample_parse_succeeds :
    parse (scan "echo |") = Except.ok ccEchoPipe := by rfl

/-- **C2** (amended).  For the input line `echo |`: the parser succeeds
(the second command of the pipeline has zero words), the translator also
succeeds and emits a `PipelinedCommands` whose sink has an empty argv,
and the interpreter rejects that plan with the error `pipeline with empty
sink command` — after having spawned the source process and then killed
and waited for it.  The error is reported by the driver and the REPL
continues. -/
theorem c2_echo_pipe_rejected_by_interpreter_sink :
    parse (scan "echo |") = Except.ok ccEchoPipe ∧
    (∀ tr : Translator, translate tr ccEchoPipe = Except.ok locEchoPipe) ∧
    interpret allOkEnv locEchoPipe initSt =
      (Except.error ⟨"pipeline with empty sink command"⟩,
       ⟨1, 1, [Event.spawned 0 "echo" [], Event.killed 0, Event.waited 0]⟩) :=
  ⟨by rfl, fun _ => rfl, by rfl⟩

/-- **C9** (confirmed).  For every subshell the translator encounters
(current-executable resolution, modelled by `Translator.exe`, succeeding),
the result is a synthetic simple command whose argv is the current
executable path, then `-x` exactly when verbose is set, then `-c` and the
serialization of the subshell's inner complete command; its redirection
list is exactly the subshell's own. -/
theorem c9_subshell_becomes_self_exec (tr : Translator) (ss : Subshell) (s : String)
    (h : serializeCompleteCommand ss.complete_command = Except.ok s) :
    tr.commandT (Command.subshell ss) =
      Except.ok
        { arguments := [tr.exe] ++ (if tr.verbose then ["-x"] else []) ++ ["-c", s]
          redirs := ss.redirs } := by
  simp only [Translator.commandT, Translator.subshellT, h]
  rfl

/-- Witness for C9 at a concrete subshell with verbose set. -/
theorem c9_subshell_becomes_self_exec_witness :
    Translator.commandT ⟨true, "/bin/xv6sh"⟩ (Command.subshell ssDemo) =
      Except.ok
        { arguments := ["/bin/xv6sh", "-x", "-c", "echo a"]
          redirs := (⟨[⟨"log"⟩], []⟩ : RedirectList) } := by
  simpa using c9_subshell_becomes_self_exec ⟨true, "/bin/xv6sh"⟩ ssDemo "echo a" (by rfl)

/-- **C10** (confirmed).  A `SingleCommand` whose argument list is empty
(the plan produced for an input line with no words) makes the interpreter
return success immediately: no process is spawned, no redirection file is
opened, no error is reported, and the state — including the event
trace — is unchanged. -/
theorem c10_empty_argv_single_command_is_noop (env : IEnv) (sc : SingleCommand)
    (st : ISt) (h : sc.arguments = []) :
    singleCommand env sc st = (Except.ok (), st) := by
  obtain ⟨args, i, o, s⟩ := sc
  cases h
  rfl

/-- Witness for C10 at a concrete empty command. -/
theorem c10_empty_argv_single_command_is_noop_witness :
    singleCommand allOkEnv ⟨[], none, none, true⟩ initSt = (Except.ok (), initSt) :=
  c10_empty_argv_single_command_is_noop allOkEnv ⟨[], none, none, true⟩ initSt rfl

/-- **C7** (confirmed).  For every `PipelinedCommands` execution that
returns an error — in particular when spawning a filter or the sink
fails — every child already spawned for that pipeline has been sent a
kill and has been waited for by the time the error is returned: no live
child of the pipeline is left unowned. -/
theorem c7_pipeline_spawn_failure_kills_and_waits (env : IEnv) (pc : PipelinedCommands) (st : ISt) (e : Err) (st' : ISt)
    (hst : st.events = [])
    (h : pipelinedCommands env pc st = (Except.error e, st')) :
    ∀ id a b, Event.spawned id a b ∈ st'.events →
      Event.killed id ∈ st'.events ∧ Event.waited id ∈ st'.events := by
  rw [pipelinedCommands] at h
  split at h
  · -- source failed: nothing spawned
    rename_i e1 st1 hsrc
    cases h
    intro id a b hab
    have hx := sourceCommand_error_spawned (by rw [hsrc]) id ⟨a, b, hab⟩
    rw [hst] at hx
    simp [spawnedIn] at hx
  rename_i child rx0 st1 hsrc
  have hpre1 : ∀ id, spawnedIn st1.events id → id ∈ [child] := by
    intro id hsp
    rcases sourceCommand_ok_spawned (by rw [hsrc]) id hsp with hx | hx
    · rw [hst] at hx; simp [spawnedIn] at hx
    · simp [hx]
  split at h
  · -- a filter failed
    rename_i e1 st2 hfl
    cases h
    intro id a b hab
    exact filtersLoop_error_killed pc.filters [child] rx0 st1 e st'
      (by rw [hfl]) hpre1 id ⟨a, b, hab⟩
  rename_i ch2 rx2 st2 hfl
  have hpre2 : ∀ id, spawnedIn st2.events id → id ∈ ch2 :=
    filtersLoop_ok_spawned pc.filters [child] rx0 st1 ch2 rx2 st2 (by rw [hfl]) hpre1
  split at h
  · -- sink failed: kill_children
    rename_i e1 st3 hsk
    cases h
    intro id a b hab
    have hx := (killChildren_spawned ch2 st3 id).mp ⟨a, b, hab⟩
    have hid := hpre2 id (sinkCommand_error_spawned (by rw [hsk]) id hx)
    exact killChildren_covers st3 hid
  · -- sink ok: result is ok, contradiction
    rename_i c st3 hsk
    split at h <;> cases h

/-- Witness for C7: a three-command pipeline whose sink spawn fails
(the oracle allows only two spawns); both already-spawned children are
killed and waited for. -/
theorem c7_pipeline_spawn_failure_kills_and_waits_witness :
    Event.killed 0 ∈ (pipelinedCommands
      { allOkEnv with spawnOk := fun n => decide (n < 2) }
      { source := { arguments := ["cat"], input := none }
        filters := [{ arguments := ["grep", "x"] }]
        sink := { arguments := ["wc"], output := none }
        sync := true } initSt).2.events ∧
    Event.waited 0 ∈ (pipelinedCommands
      { allOkEnv with spawnOk := fun n => decide (n < 2) }
      { source := { arguments := ["cat"], input := none }
        filters := [{ arguments := ["grep", "x"] }]
        sink := { arguments := ["wc"], output := none }
        sync := true } initSt).2.events :=
  c7_pipeline_spawn_failure_kills_and_waits
    { allOkEnv with spawnOk := fun n => decide (n < 2) }
    { source := { arguments := ["cat"], input := none }
      filters := [{ arguments := ["grep", "x"] }]
      sink := { arguments := ["wc"], output := none }
      sync := true } initSt ⟨"spawn failed"⟩ _ rfl rfl 0 "cat" [] (by decide)

/-- **C5** (confirmed).  For every parsed pipeline (any successful
result of `parse_pipeline`, at any fuel), the translator fails exactly
when one of the spec's per-position redirection rules is violated —
single command: at most one input and one output redirection; source: at
most one input and no output; filters: no redirections; sink: no input
and at most one output — and on failure the error is the matching
message of a violated rule.  Current-executable resolution is modelled
as succeeding (its failure is a separate, OS-level error source). -/
theorem c5_translator_fails_exactly_on_rule_violation (tr : Translator) (f : Nat) (toks : List Token)
    (p : Pipeline) (rest : List Token)
    (hparse : parsePipelineF f toks = Except.ok (p, rest)) :
    ((∃ e, tr.pipelineT p = Except.error e) ↔ specRedirViolation p) ∧
    (∀ e, tr.pipelineT p = Except.error e → specViolationMsg p e) := by
  have hpl := (parserInvAux f).2.1 toks p rest hparse
  exact pipelineT_characterization tr p (PipelineInv_commands_ne hpl) hpl.2.1

/-- Witness for C5 at the parsed pipeline of `a >x | b`, whose source
has an output redirection. -/
theorem c5_translator_fails_exactly_on_rule_violation_witness :
    ((∃ e, Translator.pipelineT ⟨false, "xv6sh"⟩ (Pipeline.mk
      [Command.simpleCommand ⟨["a"], ⟨[], [⟨"x", true⟩]⟩⟩,
       Command.simpleCommand ⟨["b"], ⟨[], []⟩⟩] false) = Except.error e) ↔
      specRedirViolation (Pipeline.mk
      [Command.simpleCommand ⟨["a"], ⟨[], [⟨"x", true⟩]⟩⟩,
       Command.simpleCommand ⟨["b"], ⟨[], []⟩⟩] false)) ∧
    (∀ e, Translator.pipelineT ⟨false, "xv6sh"⟩ (Pipeline.mk
      [Command.simpleCommand ⟨["a"], ⟨[], [⟨"x", true⟩]⟩⟩,
       Command.simpleCommand ⟨["b"], ⟨[], []⟩⟩] false) = Except.error e →
      specViolationMsg (Pipeline.mk
      [Command.simpleCommand ⟨["a"], ⟨[], [⟨"x", true⟩]⟩⟩,
       Command.simpleCommand ⟨["b"], ⟨[], []⟩⟩] false) e) :=
  c5_translator_fails_exactly_on_rule_violation ⟨false, "xv6sh"⟩ 20 (scan "a >x | b") _ [opToken Kind.endOfLine] (by rfl)


/-! ## Round-trip proof (claim C4) -/

theorem isWordChar_cases {c : Char} (h : isWordChar c = true) :
    ¬(c = ' ' ∨ c = '\t') ∧ c ≠ '|' ∧ c ≠ '(' ∧ c ≠ ')' ∧ c ≠ ';' ∧ c ≠ '&' ∧
      c ≠ '<' ∧ c ≠ '>' := by
  refine ⟨fun hc => ?_, fun hc => ?_, fun hc => ?_, fun hc => ?_, fun hc => ?_,
    fun hc => ?_, fun hc => ?_, fun hc => ?_⟩
  · rcases hc with hc | hc <;> subst hc <;> simp [isWordChar] at h
  all_goals subst hc; simp [isWordChar] at h

/-- Word characters accumulate in the scanner's buffer. -/
theorem lexRun_wordchars : ∀ (cs rest buf : List Char), cs.all isWordChar = true →
    lexRun (cs ++ rest) buf = lexRun rest (buf ++ cs) := by
  intro cs
  induction cs with
  | nil => intro rest buf _; simp
  | cons c cs ih =>
    intro rest buf hall
    simp only [List.all_cons, Bool.and_eq_true] at hall
    obtain ⟨h1, h2, h3, h4, h5, h6, h7, h8⟩ := isWordChar_cases hall.1
    rw [List.cons_append, lexRun_word c (cs ++ rest) buf h1 h2 h3 h4 h5 h6 h7 h8]
    rw [ih rest (buf ++ [c]) hall.2]
    simp

/-- Processing a non-word character first flushes the buffer, whatever
it holds. -/
theorem lexRun_flush_factor : ∀ (c : Char) (r buf : List Char), isWordChar c = false →
    lexRun (c :: r) buf = flushBuff buf ++ lexRun (c :: r) [] := by
  intro c r buf hc
  by_cases h1 : c = ' '
  · subst h1
    rw [lexRun_space _ r buf (Or.inl rfl), lexRun_space _ r [] (Or.inl rfl)]
    simp [flushBuff]
  by_cases h2 : c = '\t'
  · subst h2
    rw [lexRun_space _ r buf (Or.inr rfl), lexRun_space _ r [] (Or.inr rfl)]
    simp [flushBuff]
  by_cases h3 : c = '|'
  · subst h3
    rw [lexRun_pipe, lexRun_pipe]
    simp [flushBuff]
  by_cases h4 : c = '('
  · subst h4
    rw [lexRun_openBrace, lexRun_openBrace]
    simp [flushBuff]
  by_cases h5 : c = ')'
  · subst h5
    rw [lexRun_closeBrace, lexRun_closeBrace]
    simp [flushBuff]
  by_cases h6 : c = ';'
  · subst h6
    rw [lexRun_semicolon, lexRun_semicolon]
    simp [flushBuff]
  by_cases h7 : c = '&'
  · subst h7
    rw [lexRun_ampersand, lexRun_ampersand]
    simp [flushBuff]
  by_cases h8 : c = '<'
  · subst h8
    rw [lexRun_minor, lexRun_minor]
    simp [flushBuff]
  by_cases h9 : c = '>'
  · subst h9
    cases r with
    | nil =>
      rw [lexRun_major_eol, lexRun_major_eol]
      simp [flushBuff]
    | cons c2 r2 =>
      by_cases hc2 : c2 = '>'
      · subst hc2
        rw [lexRun_majorMajor, lexRun_majorMajor]
        simp [flushBuff]
      · rw [lexRun_major c2 r2 buf hc2, lexRun_major c2 r2 [] hc2]
        simp [flushBuff]
  · exfalso
    simp [isWordChar, h1, h2, h3, h4, h5, h6, h7, h8, h9] at hc

/-- At an operator boundary (or end of input) the buffer flushes. -/
theorem lexRun_flushOut {rest : List Char} (h : opStart rest) (buf : List Char) :
    lexRun rest buf = flushBuff buf ++ lexRun rest [] := by
  cases rest with
  | nil =>
    rw [lexRun_nil, lexRun_nil]
    simp [flushBuff]
  | cons c r =>
    exact lexRun_flush_factor c r buf h

/-- A serialized word scans to its word token at an operator boundary. -/
theorem lexRun_word_emit {w : String} {rest : List Char}
    (hw : niceWord w = true) (hrest : opStart rest) :
    lexRun (w.data ++ rest) [] = [wordTok w] ++ lexRun rest [] := by
  simp only [niceWord, Bool.and_eq_true, Bool.not_eq_true'] at hw
  have hne : w.data ≠ [] := by
    intro heq
    rw [heq] at hw
    simp at hw
  rw [lexRun_wordchars w.data rest [] hw.2]
  rw [lexRun_flushOut hrest]
  have hfb : flushBuff ([] ++ w.data) = [wordTok w] := by
    rw [flushBuff]
    rw [if_neg (by simpa using hne)]
    rfl
  rw [hfb]

theorem niceWord_head_ne_gt {w : String} (hw : niceWord w = true) :
    ∃ c cs, w.data = c :: cs ∧ c ≠ '>' ∧ isWordChar c = true := by
  simp only [niceWord, Bool.and_eq_true, Bool.not_eq_true'] at hw
  cases hd : w.data with
  | nil => rw [hd] at hw; simp at hw
  | cons c cs =>
    have hall := hw.2
    rw [hd] at hall
    simp only [List.all_cons, Bool.and_eq_true] at hall
    exact ⟨c, cs, rfl, (isWordChar_cases hall.1).2.2.2.2.2.2.2, hall.1⟩

theorem lexRun_serializeWords : ∀ (ws : List String) (rest : List Char),
    ws.all niceWord = true → opStart rest →
    lexRun ((serializeWords ws).data ++ rest) [] = ws.map wordTok ++ lexRun rest [] := by
  intro ws
  induction ws with
  | nil => intro rest _ _; simp [serializeWords]
  | cons w ws ih =>
    intro rest hall hrest
    simp only [List.all_cons, Bool.and_eq_true] at hall
    cases ws with
    | nil =>
      rw [show serializeWords [w] = w from by rw [serializeWords]]
      rw [lexRun_word_emit hall.1 hrest]
      rfl
    | cons w2 ws2 =>
      rw [show serializeWords (w :: w2 :: ws2) = w ++ " " ++ serializeWords (w2 :: ws2) from by
        rw [serializeWords]; simp]
      have hdata : (w ++ " " ++ serializeWords (w2 :: ws2)).data ++ rest =
          w.data ++ (' ' :: ((serializeWords (w2 :: ws2)).data ++ rest)) := by
        simp
      rw [hdata]
      rw [lexRun_word_emit hall.1 (by simp [opStart, isWordChar])]
      rw [lexRun_space ' ' _ [] (Or.inl rfl)]
      rw [show flushBuff [] = [] from rfl]
      rw [ih rest hall.2 hrest]
      rfl

theorem lexRun_filename_major {fn : String} {rest : List Char}
    (hfn : niceWord fn = true) (hrest : opStart rest) (b : Bool) :
    lexRun (((if b then ">" else ">>") ++ fn).data ++ rest) [] =
      [opToken (if b then Kind.major else Kind.majorMajor), wordTok fn] ++ lexRun rest [] := by
  obtain ⟨c, cs, hd, hcne, hcw⟩ := niceWord_head_ne_gt hfn
  cases b
  · -- append form ">>"
    rw [show ((if (false : Bool) then ">" else ">>") ++ fn) = (">>" : String) ++ fn from by simp]
    have hdata : ((">>" : String) ++ fn).data ++ rest = '>' :: '>' :: (fn.data ++ rest) := by
      simp
    rw [hdata]
    rw [lexRun_majorMajor]
    rw [show flushBuff [] = [] from rfl]
    rw [lexRun_word_emit hfn hrest]
    simp
  · -- overwrite form ">"
    rw [show ((if (true : Bool) then ">" else ">>") ++ fn) = (">" : String) ++ fn from by simp]
    have hdata : ((">" : String) ++ fn).data ++ rest = '>' :: (c :: (cs ++ rest)) := by
      simp [hd]
    rw [hdata]
    rw [lexRun_major c (cs ++ rest) [] hcne]
    rw [show flushBuff [] = [] from rfl]
    have : c :: (cs ++ rest) = fn.data ++ rest := by simp [hd]
    rw [this]
    rw [lexRun_word_emit hfn hrest]
    simp

theorem lexRun_serializeRedirs {rl : RedirectList} {rest : List Char}
    (hn : niceRedirs rl = true) (hrest : opStart rest) :
    lexRun ((serializeRedirs rl).data ++ rest) [] = redirToks rl ++ lexRun rest [] := by
  obtain ⟨input, output⟩ := rl
  simp only [niceRedirs, Bool.and_eq_true, decide_eq_true_eq] at hn
  obtain ⟨⟨⟨hil, hol⟩, hia⟩, hoa⟩ := hn
  match input, output with
  | _ :: _ :: _, _ => simp at hil
  | _, _ :: _ :: _ => simp at hol
  | [], [] =>
    simp [serializeRedirs, redirToks]
  | [], [o] =>
    simp only [List.all_cons, List.all_nil, Bool.and_eq_true, and_true] at hoa
    have hser : serializeRedirs ⟨[], [o]⟩ =
        (if o.overwrite then ">" else ">>") ++ o.filename := by
      rw [serializeRedirs]
      simp
    rw [hser]
    rw [lexRun_filename_major hoa hrest o.overwrite]
    simp [redirToks]
  | [i], [] =>
    simp only [List.all_cons, List.all_nil, Bool.and_eq_true, and_true] at hia
    have hser : serializeRedirs ⟨[i], []⟩ = "<" ++ i.filename := by
      rw [serializeRedirs]
      simp
    rw [hser]
    have hdata : (("<" : String) ++ i.filename).data ++ rest =
        '<' :: (i.filename.data ++ rest) := by simp
    rw [hdata, lexRun_minor]
    rw [show flushBuff [] = [] from rfl]
    rw [lexRun_word_emit hia hrest]
    simp [redirToks]
  | [i], [o] =>
    simp only [List.all_cons, List.all_nil, Bool.and_eq_true, and_true] at hia hoa
    have hser : serializeRedirs ⟨[i], [o]⟩ =
        ("<" ++ i.filename) ++ ((if o.overwrite then ">" else ">>") ++ o.filename) := by
      rw [serializeRedirs]
    rw [hser]
    have hdata : (("<" ++ i.filename) ++
        ((if o.overwrite then ">" else ">>") ++ o.filename)).data ++ rest =
        '<' :: (i.filename.data ++
          (((if o.overwrite then ">" else ">>") ++ o.filename).data ++ rest)) := by
      simp
    rw [hdata, lexRun_minor]
    rw [show flushBuff [] = [] from rfl]
    rw [lexRun_word_emit hia (by cases o.overwrite <;> simp [opStart, isWordChar])]
    rw [lexRun_filename_major hoa hrest o.overwrite]
    simp [redirToks]

theorem opStart_serializeRedirs {rl : RedirectList} {rest : List Char}
    (hrest : opStart rest) : opStart ((serializeRedirs rl).data ++ rest) := by
  obtain ⟨input, output⟩ := rl
  cases input with
  | cons i it =>
    have : serializeRedirs ⟨i :: it, output⟩ =
        ("<" ++ i.filename) ++ (match output with
          | [] => ""
          | o :: _ => (if o.overwrite then ">" else ">>") ++ o.filename) := rfl
    rw [this]
    simp [opStart, isWordChar]
  | nil =>
    cases output with
    | nil =>
      have : serializeRedirs ⟨[], []⟩ = "" := rfl
      rw [this]
      simpa using hrest
    | cons o ot =>
      have : serializeRedirs ⟨[], o :: ot⟩ =
          (if o.overwrite then ">" else ">>") ++ o.filename := by
        show ("" : String) ++ _ = _
        simp
      rw [this]
      cases o.overwrite <;> simp [opStart, isWordChar]

theorem lexRun_serializeCommand {c : Command} {rest : List Char}
    (hn : niceCommand c = true) (hrest : opStart rest) :
    ∃ s, serializeCommand c = Except.ok s ∧
      lexRun (s.data ++ rest) [] = cmdToks c ++ lexRun rest [] := by
  cases c with
  | subshell ss => simp [niceCommand] at hn
  | simpleCommand sc =>
    simp only [niceCommand, Bool.and_eq_true] at hn
    refine ⟨serializeWords sc.arguments ++ serializeRedirs sc.redirs, rfl, ?_⟩
    have hdata : (serializeWords sc.arguments ++ serializeRedirs sc.redirs).data ++ rest =
        (serializeWords sc.arguments).data ++ ((serializeRedirs sc.redirs).data ++ rest) := by
      simp
    rw [hdata]
    rw [lexRun_serializeWords sc.arguments _ hn.1 (opStart_serializeRedirs hrest)]
    rw [lexRun_serializeRedirs hn.2 hrest]
    simp [cmdToks]

theorem lexRun_serializeCommands : ∀ (cs : List Command) (rest : List Char),
    cs.all niceCommand = true → cs ≠ [] → opStart rest →
    ∃ s, serializeCommands cs = Except.ok s ∧
      lexRun (s.data ++ rest) [] = plToks cs ++ lexRun rest [] := by
  intro cs
  induction cs with
  | nil => intro rest _ hne _; exact absurd rfl hne
  | cons c cs ih =>
    intro rest hall _ hrest
    simp only [List.all_cons, Bool.and_eq_true] at hall
    cases cs with
    | nil =>
      obtain ⟨s, hs, hlex⟩ := lexRun_serializeCommand hall.1 hrest
      refine ⟨s, ?_, ?_⟩
      · rw [serializeCommands]; exact hs
      · rw [show plToks [c] = cmdToks c from by rw [plToks]]
        exact hlex
    | cons d ds =>
      obtain ⟨s2, hs2, hlex2⟩ := ih rest hall.2 (by simp) hrest
      obtain ⟨s1, hs1, hlex1⟩ := @lexRun_serializeCommand c ('|' :: (s2.data ++ rest))
        hall.1 (by simp [opStart, isWordChar])
      refine ⟨s1 ++ "|" ++ s2, ?_, ?_⟩
      · rw [show serializeCommands (c :: d :: ds) = do
            let s ← serializeCommand c
            let t ← serializeCommands (d :: ds)
            Except.ok (s ++ "|" ++ t) from by rw [serializeCommands]; simp]
        rw [hs1, hs2]
        rfl
      · have hdata : (s1 ++ "|" ++ s2).data ++ rest =
            s1.data ++ ('|' :: (s2.data ++ rest)) := by simp
        rw [hdata, hlex1]
        rw [lexRun_pipe]
        rw [show flushBuff [] = [] from rfl]
        rw [hlex2]
        rw [show plToks (c :: d :: ds) = cmdToks c ++ [opToken Kind.pipe] ++ plToks (d :: ds)
          from by rw [plToks]; simp]
        simp

theorem lexRun_serializePipelines : ∀ (ps : List Pipeline) (rest : List Char),
    ps.all nicePipeline = true → ps ≠ [] → opStart rest →
    ∃ s, serializePipelines ps = Except.ok s ∧
      lexRun (s.data ++ rest) [] = ccToks ps ++ lexRun rest [] := by
  intro ps
  induction ps with
  | nil => intro rest _ hne _; exact absurd rfl hne
  | cons p ps ih =>
    intro rest hall _ hrest
    simp only [List.all_cons, Bool.and_eq_true] at hall
    have hp := hall.1
    simp only [nicePipeline, Bool.and_eq_true, Bool.not_eq_true'] at hp
    have hcne : p.commands ≠ [] := by
      intro heq
      rw [heq] at hp
      simp at hp
    have hplser : ∀ (r : List Char), opStart r →
        ∃ s, serializePipeline p = Except.ok s ∧
          lexRun (s.data ++ r) [] = plToks p.commands ++ lexRun r [] := by
      intro r hr
      obtain ⟨s, hs, hlex⟩ := lexRun_serializeCommands p.commands r hp.2 hcne hr
      refine ⟨s, ?_, hlex⟩
      cases p with
      | mk cs b =>
        rw [serializePipeline]
        rw [if_neg (by simpa [Pipeline.commands] using hcne)]
        exact hs
    cases ps with
    | nil =>
      obtain ⟨s, hs, hlex⟩ := hplser rest hrest
      refine ⟨s, ?_, ?_⟩
      · rw [serializePipelines]; exact hs
      · rw [show ccToks [p] = plToks p.commands from by rw [ccToks]]
        exact hlex
    | cons q qs =>
      obtain ⟨s2, hs2, hlex2⟩ := ih rest hall.2 (by simp) hrest
      obtain ⟨s1, hs1, hlex1⟩ := hplser (';' :: (s2.data ++ rest))
        (by simp [opStart, isWordChar])
      refine ⟨s1 ++ ";" ++ s2, ?_, ?_⟩
      · rw [show serializePipelines (p :: q :: qs) = do
            let s ← serializePipeline p
            let t ← serializePipelines (q :: qs)
            Except.ok (s ++ ";" ++ t) from by rw [serializePipelines]; simp]
        rw [hs1, hs2]
        rfl
      · have hdata : (s1 ++ ";" ++ s2).data ++ rest =
            s1.data ++ (';' :: (s2.data ++ rest)) := by simp
        rw [hdata, hlex1]
        rw [lexRun_semicolon]
        rw [show flushBuff [] = [] from rfl]
        rw [hlex2]
        rw [show ccToks (p :: q :: qs) =
            plToks p.commands ++ [opToken Kind.semicolon] ++ ccToks (q :: qs)
          from by rw [ccToks]; simp]
        simp

theorem scan_serialize {cc : CompleteCommand} (h : niceCC cc = true) :
    ∃ s, serialize cc = Except.ok s ∧
      scan s = ccToks cc.pipelines ++ [opToken Kind.endOfLine] := by
  simp only [niceCC, Bool.and_eq_true, Bool.not_eq_true'] at h
  have hne : cc.pipelines ≠ [] := by
    intro heq
    rw [heq] at h
    simp at h
  obtain ⟨s, hs, hlex⟩ := lexRun_serializePipelines cc.pipelines [] h.2 hne (by simp [opStart])
  refine ⟨s, ?_, ?_⟩
  · rw [serialize, serializeCompleteCommand_pipelines]
    exact hs
  · rw [scan]
    have : s.data = s.data ++ [] := by simp
    rw [this, hlex]
    rw [lexRun_nil]
    rfl

theorem parseSimpleArgs_stop (t : Token) (rest : List Token)
    (h : t.kind ≠ Kind.commandOrArgument) :
    parseSimpleArgs (t :: rest) = Except.ok ([], t :: rest) := by
  rw [parseSimpleArgs]
  cases hk : t.kind <;> first | rfl | exact absurd hk h

theorem parseSimpleArgs_words : ∀ (ws : List String) (u : Token) (l : List Token),
    u.kind ≠ Kind.commandOrArgument →
    parseSimpleArgs (ws.map wordTok ++ (u :: l)) = Except.ok (ws, u :: l) := by
  intro ws
  induction ws with
  | nil => intro u l hu; simpa using parseSimpleArgs_stop u l hu
  | cons w ws ih =>
    intro u l hu
    rw [List.map_cons, List.cons_append, parseSimpleArgs]
    rw [show (wordTok w).kind = Kind.commandOrArgument from rfl]
    rw [ih u l hu]
    rfl

theorem parseRedirsLoop_stop (t : Token) (rest : List Token) (rl : RedirectList)
    (h1 : t.kind ≠ Kind.minor) (h2 : t.kind ≠ Kind.major)
    (h3 : t.kind ≠ Kind.majorMajor) :
    parseRedirsLoop (t :: rest) rl = Except.ok (rl, t :: rest) := by
  obtain ⟨k, v⟩ := t
  cases k <;>
    first | rfl | exact absurd rfl h1 | exact absurd rfl h2 | exact absurd rfl h3

theorem parseRedirsLoop_redirToks (rl : RedirectList) (t : Token) (rest : List Token)
    (hn : niceRedirs rl = true)
    (h1 : t.kind ≠ Kind.minor) (h2 : t.kind ≠ Kind.major)
    (h3 : t.kind ≠ Kind.majorMajor) :
    parseRedirsLoop (redirToks rl ++ (t :: rest)) ⟨[], []⟩ = Except.ok (rl, t :: rest) := by
  obtain ⟨inp, outp⟩ := rl
  simp only [niceRedirs, Bool.and_eq_true, decide_eq_true_eq] at hn
  cases inp with
  | cons i it =>
    cases it with
    | cons j jt =>
      have hlen := hn.1.1.1
      simp only [List.length_cons] at hlen
      omega
    | nil =>
      obtain ⟨fi⟩ := i
      cases outp with
      | nil => exact parseRedirsLoop_stop t rest ⟨[⟨fi⟩], []⟩ h1 h2 h3
      | cons o ot =>
        cases ot with
        | cons o2 ot2 =>
          have hlen := hn.1.1.2
          simp only [List.length_cons] at hlen
          omega
        | nil =>
          obtain ⟨fo, ov⟩ := o
          cases ov
          · exact parseRedirsLoop_stop t rest ⟨[⟨fi⟩], [⟨fo, false⟩]⟩ h1 h2 h3
          · exact parseRedirsLoop_stop t rest ⟨[⟨fi⟩], [⟨fo, true⟩]⟩ h1 h2 h3
  | nil =>
    cases outp with
    | nil => exact parseRedirsLoop_stop t rest ⟨[], []⟩ h1 h2 h3
    | cons o ot =>
      cases ot with
      | cons o2 ot2 =>
        have hlen := hn.1.1.2
        simp only [List.length_cons] at hlen
        omega
      | nil =>
        obtain ⟨fo, ov⟩ := o
        cases ov
        · exact parseRedirsLoop_stop t rest ⟨[], [⟨fo, false⟩]⟩ h1 h2 h3
        · exact parseRedirsLoop_stop t rest ⟨[], [⟨fo, true⟩]⟩ h1 h2 h3

theorem stopTok_kinds {t : Token} (ht : stopTok t) :
    t.kind ≠ Kind.commandOrArgument ∧ t.kind ≠ Kind.minor ∧
    t.kind ≠ Kind.major ∧ t.kind ≠ Kind.majorMajor ∧ t.kind ≠ Kind.openBrace := by
  rcases ht with h | h | h | h | h <;> simp [h]

theorem parseSimpleCommand_cmdToks (sc : SimpleCommand) (t : Token) (rest : List Token)
    (hn : niceRedirs sc.redirs = true) (ht : stopTok t) :
    parseSimpleCommand (sc.arguments.map wordTok ++ (redirToks sc.redirs ++ (t :: rest))) =
      Except.ok (Command.simpleCommand sc, t :: rest) := by
  obtain ⟨hc, hmi, hma, hmm, -⟩ := stopTok_kinds ht
  obtain ⟨args, rl⟩ := sc
  simp only at hn ⊢
  have hloop : parseRedirs (redirToks rl ++ (t :: rest)) = Except.ok (rl, t :: rest) :=
    parseRedirsLoop_redirToks rl t rest hn hmi hma hmm
  obtain ⟨inp, outp⟩ := rl
  have hn' := hn
  simp only [niceRedirs, Bool.and_eq_true, decide_eq_true_eq] at hn'
  cases inp with
  | cons i it =>
    obtain ⟨fi⟩ := i
    cases outp with
    | nil =>
      have hargs := parseSimpleArgs_words args (opToken Kind.minor)
        (wordTok fi :: (t :: rest)) (by simp [opToken])
      rw [show redirToks ⟨⟨fi⟩ :: it, []⟩ ++ (t :: rest) =
          opToken Kind.minor :: (wordTok fi :: (t :: rest)) from by simp [redirToks]]
      simp only [parseSimpleCommand, bind, Except.bind]
      rw [hargs]
      rw [show (opToken Kind.minor :: (wordTok fi :: (t :: rest))) =
          redirToks ⟨⟨fi⟩ :: it, []⟩ ++ (t :: rest) from by simp [redirToks]] at hargs ⊢
      dsimp only
      rw [hloop]
    | cons o ot =>
      obtain ⟨fo, ov⟩ := o
      have hargs := parseSimpleArgs_words args (opToken Kind.minor)
        (wordTok fi :: (opToken (if ov then Kind.major else Kind.majorMajor) ::
          (wordTok fo :: (t :: rest)))) (by simp [opToken])
      rw [show redirToks ⟨⟨fi⟩ :: it, ⟨fo, ov⟩ :: ot⟩ ++ (t :: rest) =
          opToken Kind.minor :: (wordTok fi ::
            (opToken (if ov then Kind.major else Kind.majorMajor) ::
              (wordTok fo :: (t :: rest)))) from by simp [redirToks]]
      simp only [parseSimpleCommand, bind, Except.bind]
      rw [hargs]
      rw [show (opToken Kind.minor :: (wordTok fi ::
            (opToken (if ov then Kind.major else Kind.majorMajor) ::
              (wordTok fo :: (t :: rest))))) =
          redirToks ⟨⟨fi⟩ :: it, ⟨fo, ov⟩ :: ot⟩ ++ (t :: rest) from by
        simp [redirToks]] at hargs ⊢
      dsimp only
      rw [hloop]
  | nil =>
    cases outp with
    | nil =>
      have hargs := parseSimpleArgs_words args t rest hc
      rw [show redirToks ⟨[], []⟩ ++ (t :: rest) = t :: rest from rfl]
      simp only [parseSimpleCommand, bind, Except.bind]
      rw [hargs]
      rw [show (t :: rest) = redirToks ⟨[], []⟩ ++ (t :: rest) from rfl] at hargs ⊢
      dsimp only
      rw [hloop]
      rw [show redirToks ⟨[], []⟩ ++ (t :: rest) = t :: rest from rfl]
    | cons o ot =>
      obtain ⟨fo, ov⟩ := o
      have hargs := parseSimpleArgs_words args
        (opToken (if ov then Kind.major else Kind.majorMajor))
        (wordTok fo :: (t :: rest))
        (by cases ov <;> simp [opToken])
      rw [show redirToks ⟨[], ⟨fo, ov⟩ :: ot⟩ ++ (t :: rest) =
          opToken (if ov then Kind.major else Kind.majorMajor) ::
            (wordTok fo :: (t :: rest)) from by simp [redirToks]]
      simp only [parseSimpleCommand, bind, Except.bind]
      rw [hargs]
      rw [show (opToken (if ov then Kind.major else Kind.majorMajor) ::
            (wordTok fo :: (t :: rest))) =
          redirToks ⟨[], ⟨fo, ov⟩ :: ot⟩ ++ (t :: rest) from by simp [redirToks]] at hargs ⊢
      dsimp only
      rw [hloop]

theorem parseCommandF_nonbrace (f : Nat) (u : Token) (l : List Token)
    (hu : u.kind ≠ Kind.openBrace) :
    parseCommandF (f + 1) (u :: l) = parseSimpleCommand (u :: l) := by
  obtain ⟨k, v⟩ := u
  cases k <;> first | rfl | exact absurd rfl hu

theorem parseCommandF_cmdToks (f : Nat) (c : Command) (t : Token) (rest : List Token)
    (hn : niceCommand c = true) (ht : stopTok t) :
    parseCommandF (f + 1) (cmdToks c ++ (t :: rest)) = Except.ok (c, t :: rest) := by
  obtain ⟨-, -, -, -, hob⟩ := stopTok_kinds ht
  cases c with
  | subshell ss => simp [niceCommand] at hn
  | simpleCommand sc =>
    have hnr : niceRedirs sc.redirs = true := by
      simp only [niceCommand, Bool.and_eq_true] at hn
      exact hn.2
    have hsc := parseSimpleCommand_cmdToks sc t rest hnr ht
    rw [show cmdToks (Command.simpleCommand sc) ++ (t :: rest) =
        sc.arguments.map wordTok ++ (redirToks sc.redirs ++ (t :: rest)) from by
      simp [cmdToks]]
    obtain ⟨args, rl⟩ := sc
    simp only at hsc ⊢
    cases args with
    | cons a args2 =>
      exact (parseCommandF_nonbrace f (wordTok a)
        (args2.map wordTok ++ (redirToks rl ++ (t :: rest))) (by simp [wordTok])).trans hsc
    | nil =>
      obtain ⟨inp, outp⟩ := rl
      cases inp with
      | cons i it =>
        obtain ⟨fi⟩ := i
        cases outp with
        | nil =>
          exact (parseCommandF_nonbrace f (opToken Kind.minor)
            (wordTok fi :: (t :: rest)) (by simp [opToken])).trans hsc
        | cons o ot =>
          obtain ⟨fo, ov⟩ := o
          cases ov
          · exact (parseCommandF_nonbrace f (opToken Kind.minor)
              (wordTok fi :: (opToken Kind.majorMajor :: (wordTok fo :: (t :: rest))))
              (by simp [opToken])).trans hsc
          · exact (parseCommandF_nonbrace f (opToken Kind.minor)
              (wordTok fi :: (opToken Kind.major :: (wordTok fo :: (t :: rest))))
              (by simp [opToken])).trans hsc
      | nil =>
        cases outp with
        | nil => exact (parseCommandF_nonbrace f t rest hob).trans hsc
        | cons o ot =>
          obtain ⟨fo, ov⟩ := o
          cases ov
          · exact (parseCommandF_nonbrace f (opToken Kind.majorMajor)
              (wordTok fo :: (t :: rest)) (by simp [opToken])).trans hsc
          · exact (parseCommandF_nonbrace f (opToken Kind.major)
              (wordTok fo :: (t :: rest)) (by simp [opToken])).trans hsc

theorem parsePipelineF_plToks : ∀ (cs : List Command) (f : Nat) (t : Token) (rest : List Token),
    cs.all niceCommand = true → cs ≠ [] → plStop t →
    parsePipelineF (f + (cs.length + 1)) (plToks cs ++ (t :: rest)) =
      Except.ok (Pipeline.mk cs false, t :: rest) := by
  intro cs
  induction cs with
  | nil => intro f t rest _ hne _; exact absurd rfl hne
  | cons c cs ih =>
    intro f t rest hall _ ht
    simp only [List.all_cons, Bool.and_eq_true] at hall
    have hst : stopTok t := by
      rcases ht with h | h | h | h
      · exact Or.inr (Or.inl h)
      · exact Or.inr (Or.inr (Or.inl h))
      · exact Or.inr (Or.inr (Or.inr (Or.inl h)))
      · exact Or.inr (Or.inr (Or.inr (Or.inr h)))
    cases cs with
    | nil =>
      rw [show plToks [c] = cmdToks c from by rw [plToks]]
      rw [show [c].length + 1 = 1 + 1 from rfl]
      rw [show f + (1 + 1) = (f + 1) + 1 from by omega]
      rw [parsePipelineF]
      simp only [bind, Except.bind]
      rw [parseCommandF_cmdToks f c t rest hall.1 hst]
      dsimp only
      rw [show readToken (t :: rest) = Except.ok (t, rest) from rfl]
      dsimp only
      rcases ht with h | h | h | h <;> rw [h]
    | cons d ds =>
      rw [show plToks (c :: d :: ds) = cmdToks c ++ [opToken Kind.pipe] ++ plToks (d :: ds)
        from by rw [plToks]; simp]
      rw [show (cmdToks c ++ [opToken Kind.pipe] ++ plToks (d :: ds)) ++ (t :: rest) =
          cmdToks c ++ (opToken Kind.pipe :: (plToks (d :: ds) ++ (t :: rest))) from by
        simp]
      rw [show (c :: d :: ds).length + 1 = ((d :: ds).length + 1) + 1 from by
        simp [List.length_cons]]
      rw [show f + (((d :: ds).length + 1) + 1) = (f + ((d :: ds).length + 1)) + 1 from by
        omega]
      rw [parsePipelineF]
      simp only [bind, Except.bind]
      rw [show f + ((d :: ds).length + 1) = (f + (d :: ds).length) + 1 from by omega]
      rw [parseCommandF_cmdToks (f + (d :: ds).length) c (opToken Kind.pipe)
        (plToks (d :: ds) ++ (t :: rest)) hall.1 (Or.inl rfl)]
      dsimp only
      rw [show readToken (opToken Kind.pipe :: (plToks (d :: ds) ++ (t :: rest))) =
          Except.ok (opToken Kind.pipe, plToks (d :: ds) ++ (t :: rest)) from rfl]
      dsimp only
      rw [show (opToken Kind.pipe).kind = Kind.pipe from rfl]
      dsimp only
      rw [show (f + (d :: ds).length) + 1 = f + ((d :: ds).length + 1) from by omega]
      rw [ih f t rest hall.2 (by simp) ht]
      rfl

theorem parseCompleteCommandF_ccToks : ∀ (ps : List Pipeline) (f : Nat),
    ps.all nicePipeline = true → ps ≠ [] →
    parseCompleteCommandF (f + needCC ps) (ccToks ps ++ [opToken Kind.endOfLine]) =
      Except.ok (CompleteCommand.mk ps, [opToken Kind.endOfLine]) := by
  intro ps
  induction ps with
  | nil => intro f _ hne; exact absurd rfl hne
  | cons p ps ih =>
    intro f hall _
    simp only [List.all_cons, Bool.and_eq_true] at hall
    obtain ⟨cs, sy⟩ := p
    have hp := hall.1
    simp only [nicePipeline, Bool.and_eq_true, Bool.not_eq_true'] at hp
    have hsy : sy = true := hp.1.1
    have hcne : cs ≠ [] := by
      intro heq
      have := hp.1.2
      rw [heq] at this
      simp at this
      exact this rfl
    subst hsy
    cases ps with
    | nil =>
      rw [show ccToks [Pipeline.mk cs true] = plToks cs from rfl]
      rw [show needCC [Pipeline.mk cs true] = cs.length + 2 + 1 from rfl]
      rw [show f + (cs.length + 2 + 1) = ((f + 1) + (cs.length + 1)) + 1 from by omega]
      rw [parseCompleteCommandF]
      simp only [bind, Except.bind]
      rw [show plToks cs ++ [opToken Kind.endOfLine] =
          plToks cs ++ (opToken Kind.endOfLine :: []) from rfl]
      rw [parsePipelineF_plToks cs (f + 1) (opToken Kind.endOfLine) [] hp.2 hcne
        (Or.inr (Or.inr (Or.inl rfl)))]
      dsimp only
      rw [show readToken (opToken Kind.endOfLine :: []) =
          Except.ok (opToken Kind.endOfLine, []) from rfl]
      dsimp only
      rw [show (opToken Kind.endOfLine).kind = Kind.endOfLine from rfl]
      rfl
    | cons q qs =>
      rw [show ccToks (Pipeline.mk cs true :: q :: qs) =
          plToks (Pipeline.mk cs true).commands ++ [opToken Kind.semicolon] ++
            ccToks (q :: qs) from by rw [ccToks]; simp]
      rw [show (Pipeline.mk cs true).commands = cs from rfl]
      rw [show (plToks cs ++ [opToken Kind.semicolon] ++ ccToks (q :: qs)) ++
            [opToken Kind.endOfLine] =
          plToks cs ++ (opToken Kind.semicolon ::
            (ccToks (q :: qs) ++ [opToken Kind.endOfLine])) from by simp]
      rw [show needCC (Pipeline.mk cs true :: q :: qs) =
          cs.length + 2 + needCC (q :: qs) from rfl]
      rw [show f + (cs.length + 2 + needCC (q :: qs)) =
          ((f + needCC (q :: qs)) + (cs.length + 1)) + 1 from by omega]
      rw [parseCompleteCommandF]
      simp only [bind, Except.bind]
      rw [parsePipelineF_plToks cs (f + needCC (q :: qs)) (opToken Kind.semicolon)
        (ccToks (q :: qs) ++ [opToken Kind.endOfLine]) hp.2 hcne (Or.inl rfl)]
      dsimp only
      rw [show readToken (opToken Kind.semicolon ::
            (ccToks (q :: qs) ++ [opToken Kind.endOfLine])) =
          Except.ok (opToken Kind.semicolon,
            ccToks (q :: qs) ++ [opToken Kind.endOfLine]) from rfl]
      dsimp only
      rw [show (opToken Kind.semicolon).kind = Kind.semicolon from rfl]
      dsimp only
      rw [show (f + needCC (q :: qs)) + (cs.length + 1) =
          (f + cs.length + 1) + needCC (q :: qs) from by omega]
      rw [ih (f + cs.length + 1) hall.2 (by simp)]
      rfl

theorem plToks_length : ∀ cs : List Command, cs.length ≤ (plToks cs).length + 1 := by
  intro cs
  induction cs with
  | nil => simp
  | cons c cs ih =>
    cases cs with
    | nil => simp [plToks]
    | cons d ds =>
      rw [show plToks (c :: d :: ds) = cmdToks c ++ [opToken Kind.pipe] ++ plToks (d :: ds)
        from by rw [plToks]; simp]
      simp only [List.length_cons, List.length_append] at ih ⊢
      omega

theorem needCC_le : ∀ ps : List Pipeline, needCC ps ≤ (ccToks ps).length + 4 * ps.length + 1 := by
  intro ps
  induction ps with
  | nil => simp [needCC]
  | cons p ps ih =>
    have hpl := plToks_length p.commands
    cases ps with
    | nil =>
      rw [show needCC [p] = p.commands.length + 2 + 1 from rfl]
      rw [show ccToks [p] = plToks p.commands from rfl]
      simp only [List.length_cons, List.length_nil]
      omega
    | cons q qs =>
      rw [show needCC (p :: q :: qs) = p.commands.length + 2 + needCC (q :: qs) from rfl]
      rw [show ccToks (p :: q :: qs) =
          plToks p.commands ++ [opToken Kind.semicolon] ++ ccToks (q :: qs) from by
        rw [ccToks]; simp]
      simp only [List.length_cons, List.length_append] at ih ⊢
      omega

theorem parse_ccToks (ps : List Pipeline) (hall : ps.all nicePipeline = true)
    (hne : ps ≠ []) :
    parse (ccToks ps ++ [opToken Kind.endOfLine]) = Except.ok (CompleteCommand.mk ps) := by
  have hfuel : needCC ps ≤ parseFuel (ccToks ps ++ [opToken Kind.endOfLine]) := by
    have h1 := needCC_le ps
    have h2 : ps.length ≤ (ccToks ps).length + 1 := by
      clear h1 hall hne
      induction ps with
      | nil => simp
      | cons p ps ih =>
        cases ps with
        | nil => simp
        | cons q qs =>
          rw [show ccToks (p :: q :: qs) =
              plToks p.commands ++ [opToken Kind.semicolon] ++ ccToks (q :: qs) from by
            rw [ccToks]; simp]
          simp only [List.length_cons, List.length_append] at ih ⊢
          omega
    simp only [parseFuel, List.length_append, List.length_cons, List.length_nil]
    omega
  have hP := parseCompleteCommandF_ccToks ps
    (parseFuel (ccToks ps ++ [opToken Kind.endOfLine]) - needCC ps) hall hne
  rw [Nat.sub_add_cancel hfuel] at hP
  rw [parse, parseRun]
  simp only [bind, Except.bind]
  rw [hP]
  rfl

/-- C4 (amended): for every `CompleteCommand` built from simple commands
only, with every pipeline synchronous and non-empty, at most one input and
one output redirection per command, and every word and filename a
non-empty string of word characters, serializing it and then scanning and
parsing the resulting string yields the original tree. -/
theorem c4_nice_tree_serialize_scan_parse_roundtrip (cc : CompleteCommand)
    (h : niceCC cc = true) :
    ∃ s, serialize cc = Except.ok s ∧ parse (scan s) = Except.ok cc := by
  obtain ⟨s, hs, hscan⟩ := scan_serialize h
  refine ⟨s, hs, ?_⟩
  rw [hscan]
  have hh := h
  simp only [niceCC, Bool.and_eq_true, Bool.not_eq_true'] at hh
  obtain ⟨ps⟩ := cc
  cases ps with
  | nil => exact Bool.noConfusion hh.1
  | cons p ps2 => exact parse_ccToks (p :: ps2) hh.2 (by simp)

/-- Witness for C4: the round-trip theorem applied to a concrete
two-pipeline tree with words and redirections. -/
theorem c4_roundtrip_witness : niceCC ccNiceDemo = true ∧
    ∃ s, serialize ccNiceDemo = Except.ok s ∧ parse (scan s) = Except.ok ccNiceDemo :=
  ⟨rfl, c4_nice_tree_serialize_scan_parse_roundtrip ccNiceDemo rfl⟩

/-- Counterexample to C4 as stated: the tree for `a &` consists only of
simple commands and operator-free words, but the serializer drops the
`sync=false` flag (it joins pipelines with `;` only), so the serialized
string `a` parses back to a synchronous pipeline, not the original
tree. -/
theorem c4_counterexample_async_pipeline_not_restored :
    serialize ccSyncFalse = Except.ok "a" ∧ parse (scan "a") ≠ Except.ok ccSyncFalse := by
  refine ⟨rfl, ?_⟩
  intro hcontra
  rw [show ccSyncFalse = CompleteCommand.mk
      [Pipeline.mk [Command.simpleCommand ⟨["a"], ⟨[], []⟩⟩] false] from rfl] at hcontra
  rw [show parse (scan "a") = Except.ok (CompleteCommand.mk
      [Pipeline.mk [Command.simpleCommand ⟨["a"], ⟨[], []⟩⟩] true]) from rfl] at hcontra
  injection hcontra with h1
  injection h1 with h2
  injection h2 with h3 h4
  injection h3 with h5 h6
  exact Bool.noConfusion h6

end Xv6sh
